import Mathlib

/-!
# Verification of the FLE static linker core (`FLE_ld`) and symbol lister (`FLE_nm`)

Shallow embedding of `src/student/ld.cpp` and `src/student/nm.cpp`.

Conventions of the embedding:
* C++ `std::string` is `String`; byte buffers (`std::vector<uint8_t>`) are `List Nat`
  (each element a byte value).
* `size_t` / `uint64_t` quantities (sizes, offsets, addresses) are `Nat`; their sums are
  bounded by the input size, so 64-bit wraparound is unreachable there and is not modelled.
  In the relocation value arithmetic wraparound IS reachable (signed addends), so there the
  embedding computes modulo `2^64` exactly as the `uint64_t` / `int64_t` operations do.
* `std::map` is a key-sorted association list (`minsert` keeps the sorted order, matching
  the map's sorted iteration); `std::unordered_map` is an insertion-ordered association
  list (C++ leaves its iteration order unspecified; no verified property depends on it).
* `std::set<std::string>` is a sorted, duplicate-free `List String`.
* C++ exceptions (`throw std::runtime_error`) are `Except String`.
-/

namespace FLE

/-- Symbol binding, from the `SymbolType` enumeration used by the sources
(`LOCAL`, `WEAK`, `GLOBAL`, `UNDEFINED`). -/
inductive SymbolType where
  | LOCAL
  | WEAK
  | GLOBAL
  | UNDEFINED
deriving DecidableEq, Repr

/-- Relocation kind. The four named x86-64 kinds appear in `ld.cpp`; `R_OTHER` models any
further enumeration value (the `default:` branches in the source's switches; the concrete
C++ enumeration lives in the external `fle.hpp`, whose extra members are not in `src/`). -/
inductive RelocationType where
  | R_X86_64_32
  | R_X86_64_32S
  | R_X86_64_PC32
  | R_X86_64_64
  | R_OTHER (code : Nat)
deriving DecidableEq, Repr

/-- A symbol record: name, binding, owning-section name (empty for undefined), byte offset. -/
structure Symbol where
  name : String
  type : SymbolType
  sec : String
  offset : Nat
deriving DecidableEq, Repr

/-- A relocation record: byte offset in its section, referenced symbol name, kind,
signed 64-bit addend. -/
structure Relocation where
  type : RelocationType
  offset : Nat
  symbol : String
  addend : Int
deriving DecidableEq, Repr

/-- A section: name, raw bytes, relocations, and the `has_symbols` flag. -/
structure FLESection where
  name : String
  data : List Nat
  relocs : List Relocation
  has_symbols : Bool
deriving DecidableEq, Repr

/-- A section header as emitted by the linker. -/
structure SectionHeader where
  name : String
  type : Nat
  flags : Nat
  addr : Nat
  offset : Nat
  size : Nat
deriving DecidableEq, Repr

/-- A program header as emitted by the linker. -/
structure ProgramHeader where
  name : String
  vaddr : Nat
  size : Nat
  flags : Nat
deriving DecidableEq, Repr

/-- An FLE object: translation unit, archive (`type = ".ar"`, with `members`), or output
image. `sections` models the C++ `std::map<std::string, FLESection>` as an association
list; input objects built by the external parser have unique, sorted keys, and the
embedding sorts by key wherever the C++ map's sorted iteration order is relied on. -/
inductive FLEObject where
  | mk (name : String) (type : String) (sections : List (String × FLESection))
      (symbols : List Symbol) (members : List FLEObject)
      (shdrs : List SectionHeader) (phdrs : List ProgramHeader) (entry : Nat)
deriving Repr

/-- Object name accessor. -/
def FLEObject.name : FLEObject → String
  | .mk n _ _ _ _ _ _ _ => n

/-- Object type tag accessor (".ar", ".exe", ".so", ...). -/
def FLEObject.type : FLEObject → String
  | .mk _ t _ _ _ _ _ _ => t

/-- Section map accessor. -/
def FLEObject.sections : FLEObject → List (String × FLESection)
  | .mk _ _ s _ _ _ _ _ => s

/-- Symbol list accessor. -/
def FLEObject.symbols : FLEObject → List Symbol
  | .mk _ _ _ s _ _ _ _ => s

/-- Archive member accessor. -/
def FLEObject.members : FLEObject → List FLEObject
  | .mk _ _ _ _ m _ _ _ => m

/-- Section header list accessor. -/
def FLEObject.shdrs : FLEObject → List SectionHeader
  | .mk _ _ _ _ _ s _ _ => s

/-- Program header list accessor. -/
def FLEObject.phdrs : FLEObject → List ProgramHeader
  | .mk _ _ _ _ _ _ p _ => p

/-- Entry-point accessor. -/
def FLEObject.entry : FLEObject → Nat
  | .mk _ _ _ _ _ _ _ e => e

/-- Linker options (`outputFile`, `entryPoint`, `shared`). -/
structure LinkerOptions where
  outputFile : String
  entryPoint : String
  shared : Bool
deriving DecidableEq, Repr

/-! ## String primitives

C++ `std::string` comparisons, re-expressed structurally over the character list so that
every definition evaluates by kernel reduction. `strLt` is lexicographic comparison
(`operator<`), `strIsPrefixOf p s` is `s.find(p) == 0` on a prefix probe / `s[0] == c`
for one-character probes. -/

/-- Is the first list a prefix of the second? -/
def listIsPrefixOf : List Char → List Char → Bool
  | [], _ => true
  | _ :: _, [] => false
  | a :: as, b :: bs => a = b && listIsPrefixOf as bs

/-- `strIsPrefixOf p s`: the C++ test `s.find(p) == 0` (respectively `s[0] == '.'` with a
nonempty guard, for the one-character probe `"."`). -/
def strIsPrefixOf (p s : String) : Bool :=
  listIsPrefixOf p.data s.data

/-- Lexicographic order on character lists, by code point. -/
def listLtChar : List Char → List Char → Bool
  | [], [] => false
  | [], _ :: _ => true
  | _ :: _, [] => false
  | a :: as, b :: bs =>
    if a.toNat < b.toNat then true
    else if b.toNat < a.toNat then false
    else listLtChar as bs

/-- C++ `std::string::operator<`. -/
def strLt (a b : String) : Bool :=
  listLtChar a.data b.data

/-- C++ `std::string::operator<=` (total order complement of `strLt`). -/
def strLe (a b : String) : Bool :=
  !strLt b a

/-! ## Map / set helpers (assoc lists standing in for the C++ containers) -/

/-- Lookup in an association list (C++ `map::find` / `unordered_map::find`). -/
def mfind {α : Type} (m : List (String × α)) (k : String) : Option α :=
  match m with
  | [] => none
  | (k₀, v₀) :: rest => if k₀ = k then some v₀ else mfind rest k

/-- Lookup with a default (models `map::operator[]` used read-only on a possibly
missing key, which value-initializes). -/
def mgetD {α : Type} (m : List (String × α)) (k : String) (d : α) : α :=
  (mfind m k).getD d

/-- Insert-or-replace keeping keys sorted (C++ `std::map` insertion; iteration of the
resulting list matches the map's key-sorted iteration). -/
def minsert {α : Type} (m : List (String × α)) (k : String) (v : α) : List (String × α) :=
  match m with
  | [] => [(k, v)]
  | (k₀, v₀) :: rest =>
    if k = k₀ then (k, v) :: rest
    else if strLt k k₀ then (k, v) :: (k₀, v₀) :: rest
    else (k₀, v₀) :: minsert rest k v

/-- Insert-or-replace in insertion order (C++ `std::unordered_map`; order unspecified in
C++, fixed here, and nothing verified depends on it). -/
def hinsert {α : Type} (m : List (String × α)) (k : String) (v : α) : List (String × α) :=
  match m with
  | [] => [(k, v)]
  | (k₀, v₀) :: rest => if k₀ = k then (k, v) :: rest else (k₀, v₀) :: hinsert rest k v

/-- Lookup in a `(Nat × String)`-keyed association list (the linker's
`std::map<std::pair<size_t, std::string>, size_t>`). -/
def pfind {α : Type} (m : List ((Nat × String) × α)) (k : Nat × String) : Option α :=
  match m with
  | [] => none
  | (k₀, v₀) :: rest => if k₀ = k then some v₀ else pfind rest k

/-- Append-or-replace for the pair-keyed maps (keys are inserted at most once per link, so
ordering is immaterial; kept in insertion order). -/
def pinsert {α : Type} (m : List ((Nat × String) × α)) (k : Nat × String) (v : α) :
    List ((Nat × String) × α) :=
  match m with
  | [] => [(k, v)]
  | (k₀, v₀) :: rest => if k₀ = k then (k, v) :: rest else (k₀, v₀) :: pinsert rest k v

/-- Membership test for the sorted-list model of `std::set<std::string>`. -/
def scount (s : List String) (k : String) : Bool :=
  s.contains k

/-- `std::set` insert: sorted, duplicate-free. -/
def sinsert (s : List String) (k : String) : List String :=
  match s with
  | [] => [k]
  | x :: rest =>
    if k = x then x :: rest
    else if strLt k x then k :: x :: rest
    else x :: sinsert rest k

/-- `std::set` erase. -/
def serase (s : List String) (k : String) : List String :=
  match s with
  | [] => []
  | x :: rest => if x = k then rest else x :: serase rest k

/-! ## Small arithmetic helpers from `ld.cpp` -/

/-- Page size constant (`PAGE_SIZE = 4096`). -/
def PAGE_SIZE : Nat := 4096

/-- Fixed base virtual address (`base_addr = 0x400000`). -/
def base_addr : Nat := 0x400000

/-- `align_to(value, alignment) = (value + alignment - 1) & ~(alignment - 1)`; for a
power-of-two alignment and no 64-bit wrap this equals rounding up to a multiple. -/
def align_to (value alignment : Nat) : Nat :=
  (value + alignment - 1) - (value + alignment - 1) % alignment

/-- `get_output_section_name`: prefix match to one of the four standard output names,
defaulting to `.data`. -/
def get_output_section_name (sec_name : String) : String :=
  if strIsPrefixOf ".text" sec_name then ".text"
  else if strIsPrefixOf ".rodata" sec_name then ".rodata"
  else if strIsPrefixOf ".data" sec_name then ".data"
  else if strIsPrefixOf ".bss" sec_name then ".bss"
  else ".data"

/-! ## ArchiveResolver (`ld.cpp` lines 32–121) -/

/-- The skip condition of the archive-resolution symbol scans
(`sym.name.empty() || sym.name[0] == '.' || sym.type == SymbolType::LOCAL`). -/
def skipSeed (sym : Symbol) : Bool :=
  sym.name = "" || strIsPrefixOf "." sym.name || sym.type = SymbolType.LOCAL

/-- Seed scan over one ordinary object (`ld.cpp` 49–60): accumulate
`(resolved_symbols, undefined_symbols)`. -/
def seedObj (st : List String × List String) (obj : FLEObject) : List String × List String :=
  obj.symbols.foldl
    (fun st sym =>
      if skipSeed sym then st
      else if sym.type ≠ SymbolType.UNDEFINED then (sinsert st.1 sym.name, st.2)
      else (st.1, sinsert st.2 sym.name))
    st

/-- Does an archive member define a currently-needed symbol (`ld.cpp` 79–88)? -/
def definesNeeded (member : FLEObject) (undefined : List String) : Bool :=
  member.symbols.any (fun sym =>
    !skipSeed sym && sym.type ≠ SymbolType.UNDEFINED && scount undefined sym.name)

/-- Update `(resolved, undefined)` from a pulled member's symbols (`ld.cpp` 95–107). -/
def pullUpdate (resolved undefined : List String) (member : FLEObject) :
    List String × List String :=
  member.symbols.foldl
    (fun st sym =>
      if skipSeed sym then st
      else if sym.type ≠ SymbolType.UNDEFINED then (sinsert st.1 sym.name, serase st.2 sym.name)
      else if scount st.1 sym.name then st
      else (st.1, sinsert st.2 sym.name))
    (resolved, undefined)

/-- Result of scanning one archive's member list: updated sets, updated participating
list, and whether any member was pulled (`archive_used`). -/
structure MembersOut where
  resolved : List String
  undefined : List String
  objs : List FLEObject
  used : Bool
deriving Repr

/-- Scan an archive's members in order (`ld.cpp` 78–109): each member is pulled iff it
defines a name in the current `undefined` set; pulls update the sets immediately. -/
def processMembers (members : List FLEObject) (resolved undefined : List String)
    (objs : List FLEObject) : MembersOut :=
  match members with
  | [] => ⟨resolved, undefined, objs, false⟩
  | m :: rest =>
    if definesNeeded m undefined then
      let r := pullUpdate resolved undefined m
      let out := processMembers rest r.1 r.2 (objs ++ [m])
      { out with used := true }
    else processMembers rest resolved undefined objs

/-- Result of one pass over the remaining archives. -/
structure PassOut where
  archives : List FLEObject
  resolved : List String
  undefined : List String
  objs : List FLEObject
  changed : Bool
deriving Repr

/-- One pass over the archives (`ld.cpp` 74–116): used archives are removed from the
remaining-archive list; `changed` records whether anything was pulled. -/
def onePass (archives : List FLEObject) (resolved undefined : List String)
    (objs : List FLEObject) : PassOut :=
  match archives with
  | [] => ⟨[], resolved, undefined, objs, false⟩
  | a :: rest =>
    let m := processMembers a.members resolved undefined objs
    let p := onePass rest m.resolved m.undefined m.objs
    if m.used then { p with changed := true }
    else { p with archives := a :: p.archives }

/-- Each pass keeps at most as many archives as it started with. -/
theorem onePass_length_le (archives : List FLEObject) (resolved undefined : List String)
    (objs : List FLEObject) :
    (onePass archives resolved undefined objs).archives.length ≤ archives.length := by
  induction archives generalizing resolved undefined objs with
  | nil => simp [onePass]
  | cons a rest ih =>
    simp only [onePass]
    by_cases h : (processMembers a.members resolved undefined objs).used
    · simp only [h, if_pos]
      exact Nat.le_succ_of_le (ih _ _ _)
    · simp only [h]
      simpa using ih (processMembers a.members resolved undefined objs).resolved
        (processMembers a.members resolved undefined objs).undefined
        (processMembers a.members resolved undefined objs).objs

/-- A pass that pulled something strictly shrinks the remaining-archive list (every pull
removes its archive), which terminates the fixed-point loop. -/
theorem onePass_changed_length_lt (archives : List FLEObject) (resolved undefined : List String)
    (objs : List FLEObject)
    (h : (onePass archives resolved undefined objs).changed = true) :
    (onePass archives resolved undefined objs).archives.length < archives.length := by
  induction archives generalizing resolved undefined objs with
  | nil => simp [onePass] at h
  | cons a rest ih =>
    simp only [onePass] at h ⊢
    by_cases hu : (processMembers a.members resolved undefined objs).used
    · simp only [hu, if_pos]
      exact Nat.lt_succ_of_le (onePass_length_le _ _ _ _)
    · simp only [hu, if_neg, Bool.false_eq_true, ite_false] at h ⊢
      simpa using ih (processMembers a.members resolved undefined objs).resolved
        (processMembers a.members resolved undefined objs).undefined
        (processMembers a.members resolved undefined objs).objs h

/-- The loop state after the fixed-point iteration. -/
structure ArSt where
  archives : List FLEObject
  resolved : List String
  undefined : List String
  objs : List FLEObject
deriving Repr

/-- The fixed-point loop with explicit fuel. Each continuing pass strictly shrinks the
archive list (`onePass_changed_length_lt`), so fuel `archives.length + 1` — as used by
`archiveLoop` — always reaches the fixed point; the fuel only makes the recursion
structural. -/
def archiveLoopF (fuel : Nat) (archives : List FLEObject) (resolved undefined : List String)
    (objs : List FLEObject) : ArSt :=
  match fuel with
  | 0 => ⟨archives, resolved, undefined, objs⟩
  | f + 1 =>
    let p := onePass archives resolved undefined objs
    if p.changed then archiveLoopF f p.archives p.resolved p.undefined p.objs
    else ⟨p.archives, p.resolved, p.undefined, p.objs⟩

/-- The fixed-point loop (`ld.cpp` 71–117): repeat passes until one pulls nothing. -/
def archiveLoop (archives : List FLEObject) (resolved undefined : List String)
    (objs : List FLEObject) : ArSt :=
  archiveLoopF (archives.length + 1) archives resolved undefined objs

/-- The full archive-resolution phase (`ld.cpp` 32–117): partition, seed, subtract,
iterate to fixed point; returns the participating object list. -/
def resolveParticipating (objects : List FLEObject) : List FLEObject :=
  let ordinary := objects.filter (fun o => o.type ≠ ".ar")
  let archives := objects.filter (fun o => o.type = ".ar")
  let seed := ordinary.foldl seedObj ([], [])
  let undefined := seed.1.foldl serase seed.2
  (archiveLoop archives seed.1 undefined ordinary).objs

/-! ## SectionMerger stage one (`ld.cpp` 129–157) -/

/-- A fresh, empty section record. -/
def emptySec (n : String) : FLESection :=
  { name := n, data := [], relocs := [], has_symbols := false }

/-- State of stage-one merging: per-input-name merge buffers plus the
`(object-index, section-name)` offset and size tables. -/
structure MergeSt where
  merged_sections : List (String × FLESection)
  section_offsets : List ((Nat × String) × Nat)
  section_sizes : List ((Nat × String) × Nat)
deriving Repr

/-- Merge one input section of one object into the per-name buffer (`ld.cpp` 136–156):
record its offset and size, append its bytes, and shift its relocations by the
buffer offset. -/
def mergeObjSection (obj_idx : Nat) (st : MergeSt) (p : String × FLESection) : MergeSt :=
  let sec_name := p.1
  let sec := p.2
  let merged :=
    match mfind st.merged_sections sec_name with
    | some s => s
    | none => { name := sec_name, data := [], relocs := [], has_symbols := sec.has_symbols }
  let current_offset := merged.data.length
  let merged' :=
    { merged with
      data := merged.data ++ sec.data
      relocs := merged.relocs ++
        sec.relocs.map (fun r => { r with offset := r.offset + current_offset }) }
  { merged_sections := minsert st.merged_sections sec_name merged'
    section_offsets := pinsert st.section_offsets (obj_idx, sec_name) current_offset
    section_sizes := pinsert st.section_sizes (obj_idx, sec_name) sec.data.length }

/-- Insert into a list sorted by the Boolean relation `le` (helper of `insSortBy`). -/
def insertSortedBy {α : Type} (le : α → α → Bool) (x : α) : List α → List α
  | [] => [x]
  | y :: ys => if le x y then x :: y :: ys else y :: insertSortedBy le x ys

/-- Structural insertion sort. It models both the key-sorted iteration of `std::map` and
`std::sort` (which may return any comparator-sorted permutation; this is one). -/
def insSortBy {α : Type} (le : α → α → Bool) : List α → List α
  | [] => []
  | x :: xs => insertSortedBy le x (insSortBy le xs)

/-- Iterate an object's section map in key-sorted order, as the C++ `std::map` does. -/
def sortedSections (obj : FLEObject) : List (String × FLESection) :=
  insSortBy (fun a b => strLe a.1 b.1) obj.sections

/-- Stage-one merge over all participating objects in input order (`ld.cpp` 133–157). -/
def mergeStage1 (objs : List FLEObject) : MergeSt :=
  objs.enum.foldl
    (fun st p => (sortedSections p.2).foldl (mergeObjSection p.1) st)
    ⟨[], [], []⟩

/-! ## SymbolResolver (`ld.cpp` 159–223) -/

/-- Offset rewrite applied to every symbol on entry (`ld.cpp` 172–175 and 184–187):
add the per-(object, section) merge-buffer offset when the section is known. -/
def rewriteOffset (section_offsets : List ((Nat × String) × Nat)) (obj_idx : Nat)
    (sym : Symbol) : Symbol :=
  if sym.sec ≠ "" then
    match pfind section_offsets (obj_idx, sym.sec) with
    | some off => { sym with offset := sym.offset + off }
    | none => sym
  else sym

/-- The global-table precedence step (`ld.cpp` 189–221): install a first candidate, fail
on strong/strong, replace weak or undefined entries by a strong candidate, replace
undefined entries by any defined candidate, otherwise keep the existing entry. -/
def resolveGlobal (tbl : List (String × Symbol)) (new_sym : Symbol) :
    Except String (List (String × Symbol)) :=
  match mfind tbl new_sym.name with
  | none => .ok (hinsert tbl new_sym.name new_sym)
  | some existing =>
    if existing.type = SymbolType.GLOBAL ∧ new_sym.type = SymbolType.GLOBAL then
      .error ("Multiple definition of strong symbol: " ++ new_sym.name)
    else if existing.type = SymbolType.WEAK ∧ new_sym.type = SymbolType.GLOBAL then
      .ok (hinsert tbl new_sym.name new_sym)
    else if existing.type = SymbolType.GLOBAL ∧ new_sym.type = SymbolType.WEAK then
      .ok tbl
    else if existing.type = SymbolType.WEAK ∧ new_sym.type = SymbolType.WEAK then
      .ok tbl
    else if existing.type = SymbolType.UNDEFINED ∧ new_sym.type ≠ SymbolType.UNDEFINED then
      .ok (hinsert tbl new_sym.name new_sym)
    else
      .ok tbl

/-- State of the symbol-resolution walk. -/
structure SymSt where
  global_symbols : List (String × Symbol)
  output_symbols : List Symbol
  local_symbols_by_obj : List (List (String × Symbol))
deriving Repr

/-- Process one symbol of object `obj_idx` (`ld.cpp` 169–222). Only dot-prefixed names
take the local path; every other symbol — `LOCAL`-bound ones included — goes through
the global table. -/
def processSymbol (section_offsets : List ((Nat × String) × Nat)) (obj_idx : Nat)
    (st : SymSt) (sym : Symbol) : Except String SymSt :=
  if strIsPrefixOf "." sym.name then
    let new_sym := rewriteOffset section_offsets obj_idx sym
    let locals := st.local_symbols_by_obj.set obj_idx
      (hinsert (st.local_symbols_by_obj.getD obj_idx []) sym.name new_sym)
    .ok { st with
          local_symbols_by_obj := locals
          output_symbols := st.output_symbols ++ [{ new_sym with type := SymbolType.LOCAL }] }
  else
    let new_sym := rewriteOffset section_offsets obj_idx sym
    match resolveGlobal st.global_symbols new_sym with
    | .ok tbl => .ok { st with global_symbols := tbl }
    | .error e => .error e

/-- Walk all symbols of all participating objects in input order (`ld.cpp` 166–223). -/
def buildSymbolTables (objs : List FLEObject)
    (section_offsets : List ((Nat × String) × Nat)) : Except String SymSt :=
  objs.enum.foldlM
    (fun st p => p.2.symbols.foldlM (processSymbol section_offsets p.1) st)
    ⟨[], [], List.replicate objs.length []⟩

/-! ## SectionMerger stage two: categorization (`ld.cpp` 225–311) -/

/-- State of stage-two categorization. -/
structure CatSt where
  output_sections : List (String × FLESection)
  sec_to_output : List (String × String)
  sec_offset_in_output : List (String × Nat)
deriving Repr

/-- Fold step over the sorted input-section names for one category (`ld.cpp` 253–280):
matching sections contribute bytes (skipped for `.bss`) and shifted relocations. -/
def catStep (merged_sections : List (String × FLESection)) (category_name : String)
    (prefixes : List String)
    (acc : FLESection × Nat × List (String × String) × List (String × Nat))
    (sec_name : String) :
    FLESection × Nat × List (String × String) × List (String × Nat) :=
  if prefixes.any (fun p => strIsPrefixOf p sec_name) then
    let out_sec := acc.1
    let current_offset := acc.2.1
    let src_sec := (mfind merged_sections sec_name).getD (emptySec sec_name)
    let data' := if category_name ≠ ".bss" then out_sec.data ++ src_sec.data else out_sec.data
    let relocs' := out_sec.relocs ++
      src_sec.relocs.map (fun r => { r with offset := r.offset + current_offset })
    ({ out_sec with data := data', relocs := relocs' },
      current_offset + src_sec.data.length,
      minsert acc.2.2.1 sec_name category_name,
      minsert acc.2.2.2 sec_name current_offset)
  else acc

/-- Leftover pass (`ld.cpp` 288–311): any input section matched by no category prefix is
appended to the end of `.data`. -/
def leftoverStep (merged_sections : List (String × FLESection)) (st : CatSt)
    (sec_name : String) : CatSt :=
  match mfind st.sec_to_output sec_name with
  | some _ => st
  | none =>
    let os :=
      match mfind st.output_sections ".data" with
      | some _ => st.output_sections
      | none => minsert st.output_sections ".data" (emptySec ".data")
    let dsec := (mfind os ".data").getD (emptySec ".data")
    let current_offset := dsec.data.length
    let src_sec := (mfind merged_sections sec_name).getD (emptySec sec_name)
    let dsec' :=
      { dsec with
        data := dsec.data ++ src_sec.data
        relocs := dsec.relocs ++
          src_sec.relocs.map (fun r => { r with offset := r.offset + current_offset }) }
    { output_sections := minsert os ".data" dsec'
      sec_to_output := minsert st.sec_to_output sec_name ".data"
      sec_offset_in_output := minsert st.sec_offset_in_output sec_name current_offset }

/-- The four category names in their fixed order, each with its one prefix
(`ld.cpp` 231–236). -/
def section_categories : List (String × List String) :=
  [(".text", [".text"]), (".rodata", [".rodata"]), (".data", [".data"]), (".bss", [".bss"])]

/-- Process one category (`ld.cpp` 246–285): fold the sorted input names, then keep the
category iff it gained bytes or relocations or is `.bss`. -/
def catCategory (merged_sections : List (String × FLESection))
    (all_input_sections : List String) (st : CatSt) (c : String × List String) : CatSt :=
  let r := all_input_sections.foldl (catStep merged_sections c.1 c.2)
    (emptySec c.1, 0, st.sec_to_output, st.sec_offset_in_output)
  if r.1.data ≠ [] ∨ r.1.relocs ≠ [] ∨ c.1 = ".bss" then
    { output_sections := minsert st.output_sections c.1 r.1
      sec_to_output := r.2.2.1
      sec_offset_in_output := r.2.2.2 }
  else
    { st with sec_to_output := r.2.2.1, sec_offset_in_output := r.2.2.2 }

/-- Full stage two (`ld.cpp` 226–311): run every category over the lexicographically
sorted input-section names, then place leftovers at the end of `.data`. -/
def categorize (merged_sections : List (String × FLESection)) : CatSt :=
  let all_input_sections :=
    insSortBy strLe (merged_sections.map Prod.fst)
  let st1 := section_categories.foldl
    (catCategory merged_sections all_input_sections) ⟨[], [], []⟩
  all_input_sections.foldl (leftoverStep merged_sections) st1

/-! ## Layout (`ld.cpp` 313–351) -/

/-- Result of the layout phase. -/
structure LayoutSt where
  section_vaddr_offsets : List (String × Nat)
  section_file_offsets : List (String × Nat)
  section_mem_sizes : List (String × Nat)
  out_sec_names : List String
deriving Repr

/-- Total data size of the stage-one buffers whose input name starts with `.bss`
(`ld.cpp` 333–338). -/
def bssMergedSize (merged_sections : List (String × FLESection)) : Nat :=
  merged_sections.foldl
    (fun a p => if strIsPrefixOf ".bss" p.1 then a + p.2.data.length else a) 0

/-- Layout step for one candidate output name (`ld.cpp` 325–351): skip absent sections;
align the virtual cursor to a page; `.bss` takes file offset `0` and the summed input
`.bss` size, others take the running file offset and their data size. -/
def layoutStep (output_sections merged_sections : List (String × FLESection))
    (acc : LayoutSt × Nat × Nat) (sec_name : String) : LayoutSt × Nat × Nat :=
  match mfind output_sections sec_name with
  | none => acc
  | some out_sec =>
    let st := acc.1
    let current_file_offset := acc.2.2
    let v := align_to acc.2.1 PAGE_SIZE
    if sec_name = ".bss" then
      let bss_size := bssMergedSize merged_sections
      ({ section_vaddr_offsets := minsert st.section_vaddr_offsets sec_name v
         section_file_offsets := minsert st.section_file_offsets sec_name 0
         section_mem_sizes := minsert st.section_mem_sizes sec_name bss_size
         out_sec_names := st.out_sec_names ++ [sec_name] },
        v + bss_size, current_file_offset)
    else
      let data_size := out_sec.data.length
      ({ section_vaddr_offsets := minsert st.section_vaddr_offsets sec_name v
         section_file_offsets := minsert st.section_file_offsets sec_name current_file_offset
         section_mem_sizes := minsert st.section_mem_sizes sec_name data_size
         out_sec_names := st.out_sec_names ++ [sec_name] },
        v + data_size, current_file_offset + data_size)

/-- The fixed output-section order (`ld.cpp` 322). -/
def output_order : List String :=
  [".text", ".rodata", ".data", ".bss"]

/-- The layout phase (`ld.cpp` 313–351). -/
def layout (output_sections merged_sections : List (String × FLESection)) : LayoutSt :=
  (output_order.foldl (layoutStep output_sections merged_sections) (⟨[], [], [], []⟩, 0, 0)).1

/-- Virtual-address offset of each stage-one buffer (`ld.cpp` 353–366). -/
def mergedSecVaddr (merged_sections : List (String × FLESection)) (catst : CatSt)
    (lay : LayoutSt) : List (String × Nat) :=
  merged_sections.foldl
    (fun m p =>
      match mfind lay.section_vaddr_offsets (get_output_section_name p.1) with
      | none => m
      | some v =>
        match mfind catst.sec_offset_in_output p.1 with
        | some off => minsert m p.1 (v + off)
        | none => minsert m p.1 v)
    []

/-- Rewrite a symbol's section and offset from input-section to output-section terms
(`ld.cpp` 370–385, also reused verbatim at 395–409). -/
def updateSymbolSec (catst : CatSt) (sym : Symbol) : Symbol :=
  if sym.sec ≠ "" then
    match mfind catst.sec_to_output sym.sec with
    | some out_sec_name =>
      let sym1 :=
        match mfind catst.sec_offset_in_output sym.sec with
        | some off => { sym with offset := sym.offset + off }
        | none => sym
      { sym1 with sec := out_sec_name }
    | none => { sym with sec := get_output_section_name sym.sec }
  else sym

/-! ## Relocator (`ld.cpp` 411–569) -/

/-- Context carried by the relocation pass: all tables built by the earlier stages. -/
structure LinkCtx where
  all_objects : List FLEObject
  merged_sections : List (String × FLESection)
  section_offsets : List ((Nat × String) × Nat)
  section_sizes : List ((Nat × String) × Nat)
  local_symbols_by_obj : List (List (String × Symbol))
  global_symbols : List (String × Symbol)
  catst : CatSt
  lay : LayoutSt
  merged_sec_vaddr : List (String × Nat)
  shared : Bool

/-- Range search over the (key-sorted) stage-one buffers mapped into this output section
(`ld.cpp` 425–439): first buffer whose half-open offset range contains the relocation
offset; returns buffer name and buffer-relative offset. -/
def findOrigSection (ctx : LinkCtx) (out_sec_name : String) (reloc_offset : Nat) :
    List (String × FLESection) → Option (String × Nat)
  | [] => none
  | (sec_name, sec) :: rest =>
    let hit :=
      match mfind ctx.catst.sec_to_output sec_name with
      | some o =>
        if o = out_sec_name then
          match mfind ctx.catst.sec_offset_in_output sec_name with
          | some sec_offset =>
            if sec_offset ≤ reloc_offset ∧ reloc_offset < sec_offset + sec.data.length then
              some (sec_name, reloc_offset - sec_offset)
            else none
          | none => none
        else none
      | none => none
    match hit with
    | some r => some r
    | none => findOrigSection ctx out_sec_name reloc_offset rest

/-- Walk objects in index order (`ld.cpp` 446–473) and return the first local-table hit
whose `(object, buffer)` range contains the buffer-relative offset. -/
def findLocalObj (ctx : LinkCtx) (orig_merged_sec : String) (off : Nat) (symname : String) :
    Option Symbol :=
  (List.range ctx.all_objects.length).findSome? (fun obj_idx =>
    match pfind ctx.section_offsets (obj_idx, orig_merged_sec),
          pfind ctx.section_sizes (obj_idx, orig_merged_sec) with
    | some start_offset, some size =>
      if start_offset ≤ off ∧ off < start_offset + size then
        mfind (ctx.local_symbols_by_obj.getD obj_idx []) symname
      else none
    | _, _ => none)

/-- Outcome of target resolution: a virtual address, a silent skip (shared output,
unresolved global), or a fatal error. -/
inductive TargetRes where
  | ok (s : Nat)
  | skip
  | err (msg : String)
deriving DecidableEq, Repr

/-- Resolve a dot-prefixed local-label target (`ld.cpp` 418–477). -/
def resolveLocalTarget (ctx : LinkCtx) (out_sec_name : String) (reloc : Relocation) :
    TargetRes :=
  match findOrigSection ctx out_sec_name reloc.offset ctx.merged_sections with
  | none => .err "Cannot find original section for relocation"
  | some (orig_merged_sec, reloc_offset_in_merged) =>
    match findLocalObj ctx orig_merged_sec reloc_offset_in_merged reloc.symbol with
    | some target_sym =>
      match mfind ctx.merged_sec_vaddr target_sym.sec with
      | some v => .ok (base_addr + v + target_sym.offset)
      | none =>
        .ok (base_addr +
          mgetD ctx.lay.section_vaddr_offsets (get_output_section_name target_sym.sec) 0 +
          target_sym.offset)
    | none => .err ("Undefined local symbol: " ++ reloc.symbol)

/-- Resolve an ordinary (global-table) target (`ld.cpp` 478–499). -/
def resolveGlobalTarget (ctx : LinkCtx) (reloc : Relocation) : TargetRes :=
  match mfind ctx.global_symbols reloc.symbol with
  | none => if ctx.shared then .skip else .err ("Undefined symbol: " ++ reloc.symbol)
  | some target_sym =>
    if target_sym.type = SymbolType.UNDEFINED then
      if ctx.shared then .skip else .err ("Undefined symbol: " ++ reloc.symbol)
    else if target_sym.sec ≠ "" then
      match mfind ctx.lay.section_vaddr_offsets target_sym.sec with
      | some v => .ok (base_addr + v + target_sym.offset)
      | none => .ok (base_addr + target_sym.offset)
    else .ok (base_addr + target_sym.offset)

/-- Dispatch on the dot test of the relocation's symbol name (`ld.cpp` 418). -/
def resolveTarget (ctx : LinkCtx) (out_sec_name : String) (reloc : Relocation) : TargetRes :=
  if strIsPrefixOf "." reloc.symbol then resolveLocalTarget ctx out_sec_name reloc
  else resolveGlobalTarget ctx reloc

/-- Little-endian byte decomposition: `n` bytes of `v`, least significant first. -/
def leBytes (n v : Nat) : List Nat :=
  match n with
  | 0 => []
  | k + 1 => v % 256 :: leBytes k (v / 256)

/-- Overwrite `bytes.length` bytes at `off` (the `reinterpret_cast` stores; x86-64 is
little-endian). -/
def writeBytes (data : List Nat) (off : Nat) (bytes : List Nat) : List Nat :=
  data.take off ++ bytes ++ data.drop (off + bytes.length)

/-- Read `n` bytes at `off` as a little-endian number (out-of-range bytes read as 0). -/
def readLE (data : List Nat) (off n : Nat) : Nat :=
  match n with
  | 0 => 0
  | k + 1 => data.getD off 0 + 256 * readLE data (off + 1) k

/-- Reduce an `Int` to the `uint64_t` it converts to. -/
def u64ofInt (v : Int) : Nat :=
  (v % (2 ^ 64 : Nat)).toNat

/-- `static_cast<int64_t>` of a `uint64_t` value. -/
def toInt64 (n : Nat) : Int :=
  if n % 2 ^ 64 < 2 ^ 63 then ((n % 2 ^ 64 : Nat) : Int)
  else ((n % 2 ^ 64 : Nat) : Int) - 2 ^ 64

/-- Patch width by kind (`ld.cpp` 508–520; the `default:` width is 8). -/
def relocSize (t : RelocationType) : Nat :=
  match t with
  | .R_X86_64_32 | .R_X86_64_32S | .R_X86_64_PC32 => 4
  | .R_X86_64_64 => 8
  | .R_OTHER _ => 8

/-- The patch arithmetic switch (`ld.cpp` 527–567): `abs32` computes `S + A` in
`uint64_t` and range-checks against `0xFFFFFFFF`; `abs32_signed` and `pcrel32` compute
in `int64_t` and range-check against the `int32_t` bounds; `abs64` stores 8 bytes with
no check; any other kind is fatal. -/
def applyPatch (ty : RelocationType) (S : Nat) (A : Int) (P off : Nat)
    (data : List Nat) : Except String (List Nat) :=
  match ty with
  | .R_X86_64_32 =>
    let value := u64ofInt ((S : Int) + A)
    if value > 0xFFFFFFFF then .error "R_X86_64_32 relocation overflow"
    else .ok (writeBytes data off (leBytes 4 value))
  | .R_X86_64_32S =>
    let value : Int := toInt64 S + A
    if value > 2147483647 ∨ value < -2147483648 then
      .error "R_X86_64_32S relocation overflow"
    else .ok (writeBytes data off (leBytes 4 (u64ofInt value)))
  | .R_X86_64_PC32 =>
    let value : Int := toInt64 S + A - toInt64 P
    if value > 2147483647 ∨ value < -2147483648 then
      .error "R_X86_64_PC32 relocation overflow"
    else .ok (writeBytes data off (leBytes 4 (u64ofInt value)))
  | .R_X86_64_64 =>
    let value := u64ofInt ((S : Int) + A)
    .ok (writeBytes data off (leBytes 8 value))
  | .R_OTHER code =>
    .error ("Unsupported relocation type: " ++ toString code)

/-- Process one relocation of one output section (`ld.cpp` 413–567): compute `P`,
resolve the target (this can fail BEFORE the `.bss` test), skip `.bss` sections,
silently skip patch sites past the end of the buffer, then patch. -/
def applyOneReloc (ctx : LinkCtx) (out_sec_name : String) (data : List Nat)
    (reloc : Relocation) : Except String (List Nat) :=
  let P := base_addr + mgetD ctx.lay.section_vaddr_offsets out_sec_name 0 + reloc.offset
  match resolveTarget ctx out_sec_name reloc with
  | .err e => .error e
  | .skip => .ok data
  | .ok S =>
    if out_sec_name = ".bss" then .ok data
    else if reloc.offset + relocSize reloc.type > data.length then .ok data
    else applyPatch reloc.type S reloc.addend P reloc.offset data

/-- Relocate one output section: fold its relocation list over its byte buffer. -/
def relocateSection (ctx : LinkCtx) (out_sec_name : String) (sec : FLESection) :
    Except String FLESection :=
  (sec.relocs.foldlM (applyOneReloc ctx out_sec_name) sec.data).map
    (fun d => { sec with data := d })

/-- Relocate every output section (`ld.cpp` 412). -/
def relocateAll (ctx : LinkCtx) (output_sections : List (String × FLESection)) :
    Except String (List (String × FLESection)) :=
  output_sections.mapM (fun p => (relocateSection ctx p.1 p.2).map (fun s => (p.1, s)))

/-! ## Headers and entry (`ld.cpp` 582–653) -/

/-- Modelled from the spec: numeric encodings of the `SHF` / `PHF` permission flags live
in the external `fle.hpp`, which is not under `src/`; the spec leaves the encoding to
the serializer, so the embedding fixes arbitrary distinct bits. -/
def SHF_WRITE : Nat := 1

/-- `SHF::ALLOC` bit (see `SHF_WRITE` for the encoding note). -/
def SHF_ALLOC : Nat := 2

/-- `SHF::EXEC` bit (see `SHF_WRITE` for the encoding note). -/
def SHF_EXEC : Nat := 4

/-- `SHF::NOBITS` bit (see `SHF_WRITE` for the encoding note). -/
def SHF_NOBITS : Nat := 8

/-- `PHF::R` bit (see `SHF_WRITE` for the encoding note). -/
def PHF_R : Nat := 4

/-- `PHF::W` bit (see `SHF_WRITE` for the encoding note). -/
def PHF_W : Nat := 2

/-- `PHF::X` bit (see `SHF_WRITE` for the encoding note). -/
def PHF_X : Nat := 1

/-- Build one section header (`ld.cpp` 585–608). -/
def mkShdr (lay : LayoutSt) (sec_name : String) : SectionHeader :=
  let f1 :=
    if sec_name = ".text" then SHF_ALLOC ||| SHF_EXEC
    else if sec_name = ".rodata" then SHF_ALLOC
    else SHF_ALLOC ||| SHF_WRITE
  let f2 := if sec_name = ".bss" then f1 ||| SHF_NOBITS else f1
  { name := sec_name
    type := 1
    flags := f2
    addr := base_addr + mgetD lay.section_vaddr_offsets sec_name 0
    offset := mgetD lay.section_file_offsets sec_name 0
    size := mgetD lay.section_mem_sizes sec_name 0 }

/-- Build one program header (`ld.cpp` 614–628). -/
def mkPhdr (lay : LayoutSt) (sec_name : String) : ProgramHeader :=
  { name := sec_name
    vaddr := base_addr + mgetD lay.section_vaddr_offsets sec_name 0
    size := mgetD lay.section_mem_sizes sec_name 0
    flags :=
      if sec_name = ".text" then PHF_R ||| PHF_X
      else if sec_name = ".rodata" then PHF_R
      else PHF_R ||| PHF_W }

/-- Entry-point computation (`ld.cpp` 631–653): any table hit — undefined included —
takes the symbol branch; only a missing name falls back to `.text` / base. -/
def computeEntry (global_symbols : List (String × Symbol))
    (section_vaddr_offsets : List (String × Nat)) (entryPoint : String) : Nat :=
  match mfind global_symbols entryPoint with
  | some sym =>
    if sym.sec ≠ "" then
      match mfind section_vaddr_offsets sym.sec with
      | some v => base_addr + v + sym.offset
      | none => base_addr + sym.offset
    else base_addr + sym.offset
  | none =>
    match mfind section_vaddr_offsets ".text" with
    | some v => base_addr + v
    | none => base_addr

/-! ## The linker entry point `FLE_ld` (`ld.cpp` 30–656) -/

/-- The full link pipeline, composed of the stage functions above in source order. -/
def FLE_ld (objects : List FLEObject) (options : LinkerOptions) : Except String FLEObject :=
  let all_objects := resolveParticipating objects
  if all_objects.isEmpty then .error "No input objects to link"
  else
    let mst := mergeStage1 all_objects
    match buildSymbolTables all_objects mst.section_offsets with
    | .error e => .error e
    | .ok symst =>
      let catst := categorize mst.merged_sections
      let lay := layout catst.output_sections mst.merged_sections
      let msv := mergedSecVaddr mst.merged_sections catst lay
      let gs2 := (symst.global_symbols).map (fun p => (p.1, updateSymbolSec catst p.2))
      let outsyms1 := symst.output_symbols ++
        ((gs2.filter (fun p => p.2.type ≠ SymbolType.UNDEFINED)).map Prod.snd)
      let outsyms2 := outsyms1.map (fun sym =>
        if sym.type = SymbolType.LOCAL ∧ sym.sec ≠ "" then updateSymbolSec catst sym else sym)
      let ctx : LinkCtx :=
        { all_objects := all_objects
          merged_sections := mst.merged_sections
          section_offsets := mst.section_offsets
          section_sizes := mst.section_sizes
          local_symbols_by_obj := symst.local_symbols_by_obj
          global_symbols := gs2
          catst := catst
          lay := lay
          merged_sec_vaddr := msv
          shared := options.shared }
      match relocateAll ctx catst.output_sections with
      | .error e => .error e
      | .ok relocated =>
        let finalSections :=
          if options.shared then relocated
          else relocated.map (fun p => (p.1, { p.2 with relocs := [] }))
        .ok (FLEObject.mk options.outputFile (if options.shared then ".so" else ".exe")
          finalSections outsyms2 []
          (lay.out_sec_names.map (mkShdr lay))
          (lay.out_sec_names.map (mkPhdr lay))
          (computeEntry gs2 lay.section_vaddr_offsets options.entryPoint))

/-! ## The symbol lister `FLE_nm` (`nm.cpp`) -/

/-- The sort comparator of `nm.cpp` (lines 12–23): undefined symbols last, then by
section name, then by offset. -/
def nmLess (a b : Symbol) : Bool :=
  if a.type = SymbolType.UNDEFINED ∧ b.type ≠ SymbolType.UNDEFINED then false
  else if a.type ≠ SymbolType.UNDEFINED ∧ b.type = SymbolType.UNDEFINED then true
  else if a.sec ≠ b.sec then strLt a.sec b.sec
  else decide (a.offset < b.offset)

/-- Classification character (`nm.cpp` 34–73): `U` for undefined, else a base letter by
section-name test, lowercased for `LOCAL`, kept for `GLOBAL`, and `W`/`V` for `WEAK`
text/data symbols. -/
def classChar (sym : Symbol) : Char :=
  if sym.type = SymbolType.UNDEFINED then 'U'
  else
    let is_text := strIsPrefixOf ".text" sym.sec
    let is_data := strIsPrefixOf ".data" sym.sec
    let is_bss := strIsPrefixOf ".bss" sym.sec
    let is_rodata := strIsPrefixOf ".rodata" sym.sec
    let base_char :=
      if is_text then 'T'
      else if is_data then 'D'
      else if is_bss then 'B'
      else if is_rodata then 'R'
      else '?'
    match sym.type with
    | SymbolType.LOCAL => base_char.toLower
    | SymbolType.GLOBAL => base_char
    | SymbolType.WEAK =>
      if is_text then 'W'
      else if is_data ∨ is_bss ∨ is_rodata then 'V'
      else base_char
    | SymbolType.UNDEFINED => base_char

/-- One lowercase hex digit, as `std::hex` prints. -/
def hexDigitChar (n : Nat) : Char :=
  if n < 10 then Char.ofNat (48 + n) else Char.ofNat (87 + n)

/-- Hex digits of `n`, most significant first. The fuel bounds the digit count; the
printed value is a `uint64_t`, so the 16 digits of fuel used by `hex16` are exact on the
whole reachable range. -/
def hexRender (fuel n : Nat) : List Char :=
  match fuel with
  | 0 => []
  | f + 1 => if n < 16 then [hexDigitChar n] else hexRender f (n / 16) ++ [hexDigitChar (n % 16)]

/-- 16-hex-digit zero-padded rendering (`std::hex`, `setfill('0')`, `setw(16)`). -/
def hex16 (n : Nat) : String :=
  let s := hexRender 16 n
  String.mk (List.replicate (16 - s.length) '0' ++ s)

/-- One output line of the lister (`nm.cpp` 26–78): padded offset (zero when undefined),
space, classification character, space, name. -/
def nmLine (sym : Symbol) : String :=
  hex16 (if sym.type = SymbolType.UNDEFINED then 0 else sym.offset) ++ " " ++
    String.mk [classChar sym] ++ " " ++ sym.name

/-- `FLE_nm`: sort a copy of the symbol table by the comparator and print one line per
symbol. (`std::sort` leaves the order of comparator-ties unspecified; the embedding
fixes a merge sort, which is one of the permitted outcomes.) -/
def FLE_nm (obj : FLEObject) : List String :=
  (insSortBy (fun a b => !nmLess b a) obj.symbols).map nmLine

/-! ## Helper lemmas: maps -/

/-- Inserting a key makes it findable with the inserted value. -/
theorem mfind_minsert_self {α : Type} (m : List (String × α)) (k : String) (v : α) :
    mfind (minsert m k v) k = some v := by
  induction m with
  | nil => simp [minsert, mfind]
  | cons p rest ih =>
    by_cases h : k = p.1
    · simp [minsert, h, mfind]
    · by_cases h2 : strLt k p.1 = true
      · simp [minsert, h, h2, mfind]
      · have h3 : p.1 ≠ k := fun hh => h hh.symm
        simp [minsert, h, h2, mfind, h3, ih]

/-- Inserting one key leaves every other key's lookup unchanged. -/
theorem mfind_minsert_ne {α : Type} (m : List (String × α)) (k k' : String) (v : α)
    (h : k' ≠ k) : mfind (minsert m k v) k' = mfind m k' := by
  have hks : k ≠ k' := Ne.symm h
  induction m with
  | nil => simp [minsert, mfind, hks]
  | cons p rest ih =>
    by_cases h1 : k = p.1
    · subst h1
      simp [minsert, mfind, hks]
    · by_cases h2 : strLt k p.1 = true
      · simp [minsert, h1, h2, mfind, hks]
      · simp [minsert, h1, h2, mfind, ih]

/-- `hinsert` version of `mfind_minsert_self`. -/
theorem mfind_hinsert_self {α : Type} (m : List (String × α)) (k : String) (v : α) :
    mfind (hinsert m k v) k = some v := by
  induction m with
  | nil => simp [hinsert, mfind]
  | cons p rest ih =>
    by_cases h : p.1 = k
    · simp [hinsert, h, mfind]
    · simp [hinsert, h, mfind, ih]

/-- `hinsert` version of `mfind_minsert_ne`. -/
theorem mfind_hinsert_ne {α : Type} (m : List (String × α)) (k k' : String) (v : α)
    (h : k' ≠ k) : mfind (hinsert m k v) k' = mfind m k' := by
  have hks : k ≠ k' := Ne.symm h
  induction m with
  | nil => simp [hinsert, mfind, hks]
  | cons p rest ih =>
    by_cases h1 : p.1 = k
    · subst h1
      simp [hinsert, mfind, hks]
    · simp [hinsert, h1, mfind, ih]

/-- `pinsert` version of `mfind_minsert_self`. -/
theorem pfind_pinsert_self {α : Type} (m : List ((Nat × String) × α)) (k : Nat × String)
    (v : α) : pfind (pinsert m k v) k = some v := by
  induction m with
  | nil => simp [pinsert, pfind]
  | cons p rest ih =>
    by_cases h : p.1 = k
    · simp [pinsert, h, pfind]
    · simp [pinsert, h, pfind, ih]

/-- `pinsert` version of `mfind_minsert_ne`. -/
theorem pfind_pinsert_ne {α : Type} (m : List ((Nat × String) × α)) (k k' : Nat × String)
    (v : α) (h : k' ≠ k) : pfind (pinsert m k v) k' = pfind m k' := by
  have hks : k ≠ k' := Ne.symm h
  induction m with
  | nil => simp [pinsert, pfind, hks]
  | cons p rest ih =>
    by_cases h1 : p.1 = k
    · subst h1
      simp [pinsert, pfind, hks]
    · simp [pinsert, h1, pfind, ih]

/-! ## Helper lemmas: the string order -/

/-- `listLtChar` is irreflexive. -/
theorem listLtChar_irrefl (a : List Char) : listLtChar a a = false := by
  induction a with
  | nil => rfl
  | cons c cs ih => simp [listLtChar, ih]

/-- `listLtChar` is asymmetric. -/
theorem listLtChar_asymm (a b : List Char) (h : listLtChar a b = true) :
    listLtChar b a = false := by
  induction a generalizing b with
  | nil =>
    cases b with
    | nil => simp [listLtChar] at h
    | cons d ds => simp [listLtChar]
  | cons c cs ih =>
    cases b with
    | nil => simp [listLtChar] at h
    | cons d ds =>
      simp only [listLtChar] at h ⊢
      by_cases h1 : c.toNat < d.toNat
      · simp only [h1, if_pos] at h
        have h2 : ¬ d.toNat < c.toNat := by omega
        simp [h2, h1]
      · by_cases h2 : d.toNat < c.toNat
        · simp [h1, h2] at h
        · simp only [h1, h2, if_neg, Bool.false_eq_true, ite_false] at h
          simp [h1, h2, ih ds h]

/-- If neither list is below the other, they are equal. -/
theorem listLtChar_conn (a b : List Char) (h1 : listLtChar a b = false)
    (h2 : listLtChar b a = false) : a = b := by
  induction a generalizing b with
  | nil =>
    cases b with
    | nil => rfl
    | cons d ds => simp [listLtChar] at h1
  | cons c cs ih =>
    cases b with
    | nil => simp [listLtChar] at h2
    | cons d ds =>
      simp only [listLtChar] at h1 h2
      by_cases hc : c.toNat < d.toNat
      · simp [hc] at h1
      · by_cases hd : d.toNat < c.toNat
        · simp [hd] at h2
        · have hcd : c.toNat = d.toNat := by omega
          have hval : c = d := by
            unfold Char.toNat at hcd
            exact Char.ext (UInt32.toNat.inj hcd)
          simp [hc, hd] at h1 h2
          rw [hval, ih ds h1 h2]

/-- `listLtChar` is transitive. -/
theorem listLtChar_trans (a b c : List Char) (h1 : listLtChar a b = true)
    (h2 : listLtChar b c = true) : listLtChar a c = true := by
  induction a generalizing b c with
  | nil =>
    cases c with
    | nil =>
      cases b with
      | nil => simp [listLtChar] at h1
      | cons e es => simp [listLtChar] at h2
    | cons f fs => simp [listLtChar]
  | cons x xs ih =>
    cases b with
    | nil => simp [listLtChar] at h1
    | cons y ys =>
      cases c with
      | nil => simp [listLtChar] at h2
      | cons z zs =>
        simp only [listLtChar] at h1 h2 ⊢
        by_cases hxy : x.toNat < y.toNat
        · by_cases hyz : y.toNat < z.toNat
          · simp [show x.toNat < z.toNat by omega]
          · by_cases hzy : z.toNat < y.toNat
            · simp [hyz, hzy] at h2
            · have : y.toNat = z.toNat := by omega
              simp [show x.toNat < z.toNat by omega]
        · by_cases hyx : y.toNat < x.toNat
          · simp [hxy, hyx] at h1
          · have hxy2 : x.toNat = y.toNat := by omega
            simp only [hxy, hyx, if_neg, Bool.false_eq_true, ite_false] at h1
            by_cases hyz : y.toNat < z.toNat
            · simp [show x.toNat < z.toNat by omega]
            · by_cases hzy : z.toNat < y.toNat
              · simp [hyz, hzy] at h2
              · simp only [hyz, hzy, if_neg, Bool.false_eq_true, ite_false] at h2
                have hxz : ¬ x.toNat < z.toNat := by omega
                have hzx : ¬ z.toNat < x.toNat := by omega
                simp [hxz, hzx, ih ys zs h1 h2]

/-! ## Helper lemmas: insertion sort -/

/-- Inserting into a list yields a permutation of consing. -/
theorem insertSortedBy_perm {α : Type} (le : α → α → Bool) (x : α) (l : List α) :
    (insertSortedBy le x l).Perm (x :: l) := by
  induction l with
  | nil => simp [insertSortedBy]
  | cons y ys ih =>
    by_cases h : le x y = true
    · simp [insertSortedBy, h]
    · simp only [insertSortedBy, h, Bool.false_eq_true, ite_false]
      exact ((ih.cons y).trans (List.Perm.swap x y ys))

/-- The insertion sort permutes its input. -/
theorem insSortBy_perm {α : Type} (le : α → α → Bool) (l : List α) :
    (insSortBy le l).Perm l := by
  induction l with
  | nil => simp [insSortBy]
  | cons x xs ih =>
    exact (insertSortedBy_perm le x (insSortBy le xs)).trans (ih.cons x)

/-- Membership in an insertion. -/
theorem mem_insertSortedBy {α : Type} (le : α → α → Bool) (x y : α) (l : List α)
    (h : y ∈ insertSortedBy le x l) : y = x ∨ y ∈ l := by
  have := (insertSortedBy_perm le x l).mem_iff.mp h
  simpa using this

/-- Inserting into a `le`-sorted list keeps it sorted, for a total transitive `le`. -/
theorem pairwise_insertSortedBy {α : Type} (le : α → α → Bool)
    (htot : ∀ a b, le a b = true ∨ le b a = true)
    (htr : ∀ a b c, le a b = true → le b c = true → le a c = true)
    (x : α) (l : List α) (hl : l.Pairwise (fun a b => le a b = true)) :
    (insertSortedBy le x l).Pairwise (fun a b => le a b = true) := by
  induction l with
  | nil => simp [insertSortedBy]
  | cons y ys ih =>
    rcases List.pairwise_cons.mp hl with ⟨hy, hys⟩
    by_cases h : le x y = true
    · rw [insertSortedBy, if_pos h]
      refine List.pairwise_cons.mpr ⟨?_, hl⟩
      intro z hz
      rcases List.mem_cons.mp hz with hz | hz
      · rw [hz]; exact h
      · exact htr x y z h (hy z hz)
    · have hyx : le y x = true := (htot x y).resolve_left (fun hh => h hh)
      rw [insertSortedBy, if_neg (by simp [h])]
      refine List.pairwise_cons.mpr ⟨?_, ih hys⟩
      intro z hz
      rcases mem_insertSortedBy le x z ys hz with hz | hz
      · rw [hz]; exact hyx
      · exact hy z hz

/-- The insertion sort sorts, for a total transitive `le`. -/
theorem pairwise_insSortBy {α : Type} (le : α → α → Bool)
    (htot : ∀ a b, le a b = true ∨ le b a = true)
    (htr : ∀ a b c, le a b = true → le b c = true → le a c = true) (l : List α) :
    (insSortBy le l).Pairwise (fun a b => le a b = true) := by
  induction l with
  | nil => simp [insSortBy]
  | cons x xs ih => exact pairwise_insertSortedBy le htot htr x _ ih

/-! ## Helper lemmas: little-endian stores and loads -/

/-- Value of a little-endian byte list. -/
def lval : List Nat → Nat
  | [] => 0
  | b :: bs => b + 256 * lval bs

/-- `leBytes` produces the requested number of bytes. -/
theorem leBytes_length (n v : Nat) : (leBytes n v).length = n := by
  induction n generalizing v with
  | zero => rfl
  | succ k ih => simp [leBytes, ih]

/-- The value of the bytes of `v` is `v` reduced modulo the byte width. -/
theorem lval_leBytes (n v : Nat) : lval (leBytes n v) = v % 256 ^ n := by
  induction n generalizing v with
  | zero => simp [leBytes, lval, Nat.mod_one]
  | succ k ih =>
    simp only [leBytes, lval, ih]
    rw [pow_succ, Nat.mul_comm (256 ^ k) 256, Nat.mod_mul]

/-- Reading a little-endian number out of the middle of a concatenation. -/
theorem readLE_append (mid : List Nat) :
    ∀ (pre post : List Nat), readLE (pre ++ (mid ++ post)) pre.length mid.length = lval mid := by
  induction mid with
  | nil => intro pre post; simp [readLE, lval]
  | cons b bs ih =>
    intro pre post
    simp only [readLE, List.length_cons, lval]
    have hrw : pre ++ (b :: bs ++ post) = (pre ++ [b]) ++ (bs ++ post) := by simp
    have hget : ((pre ++ [b]) ++ (bs ++ post)).getD pre.length 0 = b := by
      rw [List.getD_append (pre ++ [b]) (bs ++ post) 0 pre.length (by simp)]
      rw [List.getD_append_right pre [b] 0 pre.length (Nat.le_refl _)]
      simp
    rw [hrw, hget]
    have hlen : pre.length + 1 = (pre ++ [b]).length := by simp
    rw [hlen, ih (pre ++ [b]) post]

/-- Reading back a little-endian store: the stored bytes decode to the stored value
modulo the byte width. -/
theorem readLE_writeBytes (data : List Nat) (off n v : Nat) (h : off + n ≤ data.length) :
    readLE (writeBytes data off (leBytes n v)) off n = v % 256 ^ n := by
  have hoff : (data.take off).length = off :=
    List.length_take_of_le (Nat.le_trans (Nat.le_add_right off n) h)
  have hlen : (leBytes n v).length = n := leBytes_length n v
  have := readLE_append (leBytes n v) (data.take off) (data.drop (off + n))
  rw [hoff, hlen] at this
  unfold writeBytes
  rw [hlen, List.append_assoc, this, lval_leBytes]

/-! ## C1: resolution precedence -/

/-- Outcome classification for one resolution step. -/
inductive ResAction where
  | install
  | fail
  | replace
  | keep
deriving DecidableEq, Repr

/-- The §4.3 precedence table, written from the spec's words: rows are the existing
binding, columns the candidate binding (only `global`/`weak`/`undefined` appear). -/
def precedenceTable : SymbolType → SymbolType → ResAction
  | SymbolType.GLOBAL, SymbolType.GLOBAL => .fail
  | SymbolType.GLOBAL, _ => .keep
  | SymbolType.WEAK, SymbolType.GLOBAL => .replace
  | SymbolType.WEAK, _ => .keep
  | SymbolType.UNDEFINED, SymbolType.GLOBAL => .replace
  | SymbolType.UNDEFINED, SymbolType.WEAK => .replace
  | SymbolType.UNDEFINED, SymbolType.UNDEFINED => .keep
  | _, _ => .keep

/-- C1: the global-symbol resolution step follows the §4.3 precedence table for every
pair of existing/candidate bindings drawn from global/weak/undefined: a first candidate
is installed; strong over strong fails with multiple-definition; strong replaces weak or
undefined; weak or undefined never displaces global or weak; any defined candidate
replaces undefined; undefined over undefined keeps the existing entry. -/
theorem C1_resolution_precedence (tbl : List (String × Symbol)) (new_sym existing : Symbol)
    (hc : new_sym.type = SymbolType.GLOBAL ∨ new_sym.type = SymbolType.WEAK ∨
      new_sym.type = SymbolType.UNDEFINED)
    (he : existing.type = SymbolType.GLOBAL ∨ existing.type = SymbolType.WEAK ∨
      existing.type = SymbolType.UNDEFINED) :
    (mfind tbl new_sym.name = none →
      resolveGlobal tbl new_sym = .ok (hinsert tbl new_sym.name new_sym)) ∧
    (mfind tbl new_sym.name = some existing →
      resolveGlobal tbl new_sym =
        match precedenceTable existing.type new_sym.type with
        | .install => .ok (hinsert tbl new_sym.name new_sym)
        | .fail => .error ("Multiple definition of strong symbol: " ++ new_sym.name)
        | .replace => .ok (hinsert tbl new_sym.name new_sym)
        | .keep => .ok tbl) := by
  constructor
  · intro h
    simp [resolveGlobal, h]
  · intro h
    rcases he with he | he | he <;> rcases hc with hc | hc | hc <;>
      simp [resolveGlobal, h, he, hc, precedenceTable]

/-- Witness for C1: a strong candidate over an installed strong definition of `main`
fails with multiple-definition. -/
theorem C1_witness :
    resolveGlobal
        [("main", { name := "main", type := SymbolType.GLOBAL, sec := ".text", offset := 0 })]
        { name := "main", type := SymbolType.GLOBAL, sec := ".text", offset := 8 } =
      .error "Multiple definition of strong symbol: main" := by
  have h := C1_resolution_precedence
    [("main", { name := "main", type := SymbolType.GLOBAL, sec := ".text", offset := 0 })]
    { name := "main", type := SymbolType.GLOBAL, sec := ".text", offset := 8 }
    { name := "main", type := SymbolType.GLOBAL, sec := ".text", offset := 0 }
    (Or.inl rfl) (Or.inl rfl)
  exact h.2 (by decide)


/-! ## C2: relocation patch arithmetic -/

/-- `static_cast<int64_t>` of a `uint64_t` below `2^63` is numerically the identity. -/
theorem toInt64_of_lt (n : Nat) (h : n < 2 ^ 63) : toInt64 n = (n : Int) := by
  unfold toInt64
  have h64 : n % 2 ^ 64 = n := Nat.mod_eq_of_lt (lt_trans h (by norm_num))
  rw [h64, if_pos h]

/-- A `uint64_t` value is below `2^64`. -/
theorem u64ofInt_lt (v : Int) : u64ofInt v < 2 ^ 64 := by
  unfold u64ofInt
  have h1 : v % ((2 : Nat) ^ 64 : Int) < ((2 : Nat) ^ 64 : Int) :=
    Int.emod_lt_of_pos v (by norm_num)
  have h0 : (0 : Int) ≤ v % ((2 : Nat) ^ 64 : Int) := Int.emod_nonneg v (by norm_num)
  omega

/-- Casting the low 32 bits of a `uint64_t` conversion back to `Int` is reduction
modulo `2^32`. -/
theorem cast_u64_mod32 (value : Int) :
    ((u64ofInt value % 4294967296 : Nat) : Int) = value % 4294967296 := by
  have h0 : (0 : Int) ≤ value % ((2 ^ 64 : Nat) : Int) := Int.emod_nonneg value (by norm_num)
  have hcast : ((u64ofInt value : Nat) : Int) = value % ((2 ^ 64 : Nat) : Int) := by
    unfold u64ofInt
    exact Int.toNat_of_nonneg h0
  rw [Int.natCast_mod, hcast]
  rw [show (((2 ^ 64 : Nat) : Int)) = 4294967296 * 4294967296 by norm_num]
  rw [show (((4294967296 : Nat) : Int)) = (4294967296 : Int) by norm_num]
  exact Int.emod_emod_of_dvd value ⟨4294967296, rfl⟩

/-- Equation lemma: the `abs32` arm of the patch switch. -/
theorem applyPatch_32_eq (S : Nat) (A : Int) (P off : Nat) (data : List Nat) :
    applyPatch RelocationType.R_X86_64_32 S A P off data =
      if u64ofInt ((S : Int) + A) > 0xFFFFFFFF then
        .error "R_X86_64_32 relocation overflow"
      else .ok (writeBytes data off (leBytes 4 (u64ofInt ((S : Int) + A)))) := rfl

/-- Equation lemma: the `abs32_signed` arm of the patch switch. -/
theorem applyPatch_32S_eq (S : Nat) (A : Int) (P off : Nat) (data : List Nat) :
    applyPatch RelocationType.R_X86_64_32S S A P off data =
      if toInt64 S + A > 2147483647 ∨ toInt64 S + A < -2147483648 then
        .error "R_X86_64_32S relocation overflow"
      else .ok (writeBytes data off (leBytes 4 (u64ofInt (toInt64 S + A)))) := rfl

/-- Equation lemma: the `pcrel32` arm of the patch switch. -/
theorem applyPatch_PC32_eq (S : Nat) (A : Int) (P off : Nat) (data : List Nat) :
    applyPatch RelocationType.R_X86_64_PC32 S A P off data =
      if toInt64 S + A - toInt64 P > 2147483647 ∨ toInt64 S + A - toInt64 P < -2147483648 then
        .error "R_X86_64_PC32 relocation overflow"
      else .ok (writeBytes data off (leBytes 4 (u64ofInt (toInt64 S + A - toInt64 P)))) := rfl

/-- Equation lemma: the `abs64` arm of the patch switch. -/
theorem applyPatch_64_eq (S : Nat) (A : Int) (P off : Nat) (data : List Nat) :
    applyPatch RelocationType.R_X86_64_64 S A P off data =
      .ok (writeBytes data off (leBytes 8 (u64ofInt ((S : Int) + A)))) := rfl

/-- C2: patch arithmetic of `ld.cpp` 527–567. `abs32` computes `S + A` in `uint64_t` and
fails iff the value exceeds `0xFFFFFFFF`, else stores it as 32-bit little-endian;
`abs32_signed` and `pcrel32` compute `S + A` (resp. `S + A − P`) in `int64_t` and fail
iff outside `[INT32_MIN, INT32_MAX]`, else store the signed 32-bit little-endian value;
`abs64` stores 64-bit little-endian with no range check; any other kind fails as
unsupported. The bridge conjunct shows this is exactly what `applyOneReloc` runs for an
in-bounds relocation of a non-`.bss` output section with a resolved target, and the last
conjunct is the PC-relative identity: same output section and `A = −4` store
`target_offset − site_offset − 4`. -/
theorem C2_patch_arithmetic (S P off : Nat) (A : Int) (data : List Nat)
    (hS : S < 2 ^ 63) (hP : P < 2 ^ 63)
    (h4 : off + 4 ≤ data.length) (h8 : off + 8 ≤ data.length) :
    (applyPatch RelocationType.R_X86_64_32 S A P off data =
        .error "R_X86_64_32 relocation overflow" ↔ u64ofInt ((S : Int) + A) > 0xFFFFFFFF) ∧
    (u64ofInt ((S : Int) + A) ≤ 0xFFFFFFFF →
      ∃ d, applyPatch RelocationType.R_X86_64_32 S A P off data = .ok d ∧
        readLE d off 4 = u64ofInt ((S : Int) + A)) ∧
    (applyPatch RelocationType.R_X86_64_32S S A P off data =
        .error "R_X86_64_32S relocation overflow" ↔
      ((S : Int) + A > 2147483647 ∨ (S : Int) + A < -2147483648)) ∧
    (-2147483648 ≤ (S : Int) + A → (S : Int) + A ≤ 2147483647 →
      ∃ d, applyPatch RelocationType.R_X86_64_32S S A P off data = .ok d ∧
        ((readLE d off 4 : Nat) : Int) = ((S : Int) + A) % 4294967296) ∧
    (applyPatch RelocationType.R_X86_64_PC32 S A P off data =
        .error "R_X86_64_PC32 relocation overflow" ↔
      ((S : Int) + A - P > 2147483647 ∨ (S : Int) + A - P < -2147483648)) ∧
    (-2147483648 ≤ (S : Int) + A - P → (S : Int) + A - P ≤ 2147483647 →
      ∃ d, applyPatch RelocationType.R_X86_64_PC32 S A P off data = .ok d ∧
        ((readLE d off 4 : Nat) : Int) = ((S : Int) + A - P) % 4294967296) ∧
    (∃ d, applyPatch RelocationType.R_X86_64_64 S A P off data = .ok d ∧
      readLE d off 8 = u64ofInt ((S : Int) + A)) ∧
    (∀ code, applyPatch (RelocationType.R_OTHER code) S A P off data =
      .error ("Unsupported relocation type: " ++ toString code)) ∧
    (∀ (ctx : LinkCtx) (osn : String) (reloc : Relocation) (d0 : List Nat),
      osn ≠ ".bss" → resolveTarget ctx osn reloc = .ok S →
      reloc.offset + relocSize reloc.type ≤ d0.length →
      applyOneReloc ctx osn d0 reloc =
        applyPatch reloc.type S reloc.addend
          (base_addr + mgetD ctx.lay.section_vaddr_offsets osn 0 + reloc.offset)
          reloc.offset d0) ∧
    (∀ v t s : Nat, S = base_addr + v + t → P = base_addr + v + s → A = -4 →
      -2147483648 ≤ (t : Int) - s - 4 → (t : Int) - s - 4 ≤ 2147483647 →
      ∃ d, applyPatch RelocationType.R_X86_64_PC32 S A P off data = .ok d ∧
        ((readLE d off 4 : Nat) : Int) = ((t : Int) - s - 4) % 4294967296) := by
  have h2562 : (256 : Nat) ^ 4 = 4294967296 := by norm_num
  have hSi := toInt64_of_lt S hS
  have hPi := toInt64_of_lt P hP
  refine ⟨?_, ?_, ?_, ?_, ?_, ?_, ?_, ?_, ?_, ?_⟩
  · rw [applyPatch_32_eq]
    by_cases h : u64ofInt ((S : Int) + A) > 0xFFFFFFFF <;> simp [h]
  · intro hle
    have h : ¬ u64ofInt ((S : Int) + A) > 0xFFFFFFFF := by omega
    refine ⟨writeBytes data off (leBytes 4 (u64ofInt ((S : Int) + A))), ?_, ?_⟩
    · rw [applyPatch_32_eq, if_neg h]
    · rw [readLE_writeBytes data off 4 _ h4, h2562]
      exact Nat.mod_eq_of_lt (by omega)
  · rw [applyPatch_32S_eq, hSi]
    by_cases h : (S : Int) + A > 2147483647 ∨ (S : Int) + A < -2147483648 <;> simp [h]
  · intro hlo hhi
    have h : ¬ ((S : Int) + A > 2147483647 ∨ (S : Int) + A < -2147483648) := by omega
    refine ⟨writeBytes data off (leBytes 4 (u64ofInt (toInt64 S + A))), ?_, ?_⟩
    · rw [applyPatch_32S_eq, hSi, if_neg h]
    · rw [readLE_writeBytes data off 4 _ h4, h2562, hSi]
      exact cast_u64_mod32 _
  · rw [applyPatch_PC32_eq, hSi, hPi]
    by_cases h : (S : Int) + A - P > 2147483647 ∨ (S : Int) + A - P < -2147483648 <;> simp [h]
  · intro hlo hhi
    have h : ¬ ((S : Int) + A - P > 2147483647 ∨ (S : Int) + A - P < -2147483648) := by omega
    refine ⟨writeBytes data off (leBytes 4 (u64ofInt (toInt64 S + A - toInt64 P))), ?_, ?_⟩
    · rw [applyPatch_PC32_eq, hSi, hPi, if_neg h]
    · rw [readLE_writeBytes data off 4 _ h4, h2562, hSi, hPi]
      exact cast_u64_mod32 _
  · refine ⟨writeBytes data off (leBytes 8 (u64ofInt ((S : Int) + A))), applyPatch_64_eq S A P off data, ?_⟩
    rw [readLE_writeBytes data off 8 _ h8]
    exact Nat.mod_eq_of_lt (lt_of_lt_of_le (u64ofInt_lt _) (by norm_num))
  · intro code
    rfl
  · intro ctx osn reloc d0 hosn hres hbound
    simp [applyOneReloc, hres, hosn, Nat.not_lt.mpr hbound]
  · intro v t s hSeq hPeq hAeq hlo hhi
    have hval : (S : Int) + A - P = (t : Int) - s - 4 := by
      subst hSeq hPeq hAeq
      push_cast
      ring
    have h : ¬ ((S : Int) + A - P > 2147483647 ∨ (S : Int) + A - P < -2147483648) := by
      omega
    refine ⟨writeBytes data off (leBytes 4 (u64ofInt (toInt64 S + A - toInt64 P))), ?_, ?_⟩
    · rw [applyPatch_PC32_eq, hSi, hPi, if_neg h]
    · rw [readLE_writeBytes data off 4 _ h4, h2562, hSi, hPi, hval]
      exact cast_u64_mod32 _

/-- Witness for C2: at `S = 0x401048, P = 0x401005, A = −4` — both in the same output
section at `vaddr` offset `0x1000`, target offset 72, site offset 5 — the `pcrel32`
patch succeeds and stores `72 − 5 − 4 = 63`. -/
theorem C2_witness :
    ∃ d, applyPatch RelocationType.R_X86_64_PC32 0x401048 (-4) 0x401005 0
        (List.replicate 12 0) = .ok d ∧
      ((readLE d 0 4 : Nat) : Int) = ((72 : Int) - 5 - 4) % 4294967296 := by
  have h := C2_patch_arithmetic 0x401048 0x401005 0 (-4) (List.replicate 12 0)
    (by norm_num) (by norm_num) (by simp) (by simp)
  exact h.2.2.2.2.2.2.2.2.2 0x1000 72 5 (by norm_num [base_addr]) (by norm_num [base_addr])
    rfl (by norm_num) (by norm_num)


/-! ## Projection helpers for closed statements about link results -/

/-- Did the link succeed? -/
def ldOk (r : Except String FLEObject) : Bool :=
  match r with
  | .ok _ => true
  | .error _ => false

/-- Error message of a failed link. -/
def ldErr (r : Except String FLEObject) : Option String :=
  match r with
  | .ok _ => none
  | .error e => some e

/-- Entry address of a successful link. -/
def ldEntry (r : Except String FLEObject) : Option Nat :=
  match r with
  | .ok o => some o.entry
  | .error _ => none

/-- Named output section of a successful link. -/
def ldSection (r : Except String FLEObject) (n : String) : Option FLESection :=
  match r with
  | .ok o => mfind o.sections n
  | .error _ => none

/-- Address of the named section header of a successful link. -/
def ldShdrAddr (r : Except String FLEObject) (n : String) : Option Nat :=
  match r with
  | .ok o => (o.shdrs.find? (fun s => decide (s.name = n))).map SectionHeader.addr
  | .error _ => none

/-- Names of the entries of the final global-symbol table built for a list of objects
(the table is internal in `ld.cpp`; this recomputes it with the same stage functions
`FLE_ld` runs). -/
def symKeysOf (r : Except String SymSt) : List String :=
  match r with
  | .ok st => st.global_symbols.map Prod.fst
  | .error _ => []

/-- Per-object local symbol tables of a built symbol state. -/
def localsOf (r : Except String SymSt) : List (List (String × Symbol)) :=
  match r with
  | .ok st => st.local_symbols_by_obj
  | .error _ => []

/-! ## C4: out-of-bounds patch sites (claim corrected) -/

/-- The C4 counterexample input: one object whose `.text` is 2 bytes but carries an
8-byte `abs64` relocation at offset 1 — the patch site `1 + 8 > 2` extends past the
output buffer. -/
def cex4_obj : FLEObject :=
  FLEObject.mk "a.o" ".o"
    [(".text", { name := ".text", data := [0x90, 0x90],
                 relocs := [{ type := RelocationType.R_X86_64_64, offset := 1,
                              symbol := "_start", addend := 0 }],
                 has_symbols := true })]
    [{ name := "_start", type := SymbolType.GLOBAL, sec := ".text", offset := 0 }]
    [] [] [] 0

/-- Executable-output options with entry symbol `_start`. -/
def cexOptsExe : LinkerOptions :=
  { outputFile := "a.out", entryPoint := "_start", shared := false }

/-- Counterexample to C4 as stated: the link does NOT fail with
`relocation-out-of-bounds` — it succeeds, and the two `.text` bytes are untouched.
(`ld.cpp` 522–524 runs `continue`, not `throw`, when `offset + size > data.size()`.) -/
theorem C4_counterexample :
    ldOk (FLE_ld [cex4_obj] cexOptsExe) = true ∧
    ldSection (FLE_ld [cex4_obj] cexOptsExe) ".text" =
      some { name := ".text", data := [0x90, 0x90], relocs := [], has_symbols := false } := by
  constructor
  · decide
  · decide

/-- C4 amended: a relocation in a non-`.bss` output section whose patch site extends past
the section's byte buffer is silently skipped — provided its target resolved, the
section data is returned unchanged and no error is raised. -/
theorem C4_oob_silently_skipped (ctx : LinkCtx) (osn : String) (data : List Nat)
    (reloc : Relocation) (S : Nat)
    (hres : resolveTarget ctx osn reloc = .ok S)
    (hosn : osn ≠ ".bss")
    (hoob : reloc.offset + relocSize reloc.type > data.length) :
    applyOneReloc ctx osn data reloc = .ok data := by
  simp [applyOneReloc, hres, hosn, hoob]

/-- Witness for the amended C4 at a concrete context: symbol `f` resolves to the base
address, and the 8-byte patch at offset 0 of a 1-byte buffer is skipped. -/
theorem C4_witness :
    applyOneReloc
        { all_objects := [], merged_sections := [], section_offsets := [],
          section_sizes := [], local_symbols_by_obj := [],
          global_symbols := [("f", { name := "f", type := SymbolType.GLOBAL, sec := "",
                                     offset := 0 })],
          catst := ⟨[], [], []⟩, lay := ⟨[], [], [], []⟩, merged_sec_vaddr := [],
          shared := false }
        ".text" [0]
        { type := RelocationType.R_X86_64_64, offset := 0, symbol := "f", addend := 0 } =
      .ok [0] := by
  exact C4_oob_silently_skipped _ ".text" [0] _ 0x400000 (by decide) (by decide) (by decide)

/-! ## C5: entry-address selection (claim corrected) -/

/-- The C5 counterexample input: `.text` is present (4 bytes) and the entry name
`_start` appears in the symbol table as an undefined reference with offset 8. -/
def cex5_obj : FLEObject :=
  FLEObject.mk "a.o" ".o"
    [(".text", { name := ".text", data := [0x90, 0x90, 0x90, 0x90], relocs := [],
                 has_symbols := true })]
    [{ name := "_start", type := SymbolType.UNDEFINED, sec := "", offset := 8 }]
    [] [] [] 0

/-- Counterexample to C5 as stated: with `_start` present in the global table but
undefined, the claim requires the entry to be `.text`'s first byte `0x400000`; the code
instead takes the symbol branch and produces `base + offset = 0x400008`. -/
theorem C5_counterexample :
    ldEntry (FLE_ld [cex5_obj] cexOptsExe) = some 0x400008 ∧
    ldShdrAddr (FLE_ld [cex5_obj] cexOptsExe) ".text" = some 0x400000 ∧
    (0x400008 : Nat) ≠ 0x400000 := by
  refine ⟨by decide, by decide, by decide⟩

/-- C5 amended: the entry is `base + section-vaddr-offset + symbol-offset` whenever the
entry name is PRESENT in the global table — defined or not — with the section offset
taken as 0 when the recorded section is empty or not laid out; the `.text`-or-base
fallback applies only when the entry name is ABSENT from the table. -/
theorem C5_entry_characterization (gs : List (String × Symbol))
    (svo : List (String × Nat)) (ep : String) (sym : Symbol) (v : Nat) :
    (mfind gs ep = some sym → sym.sec ≠ "" → mfind svo sym.sec = some v →
      computeEntry gs svo ep = base_addr + v + sym.offset) ∧
    (mfind gs ep = some sym → sym.sec ≠ "" → mfind svo sym.sec = none →
      computeEntry gs svo ep = base_addr + sym.offset) ∧
    (mfind gs ep = some sym → sym.sec = "" →
      computeEntry gs svo ep = base_addr + sym.offset) ∧
    (mfind gs ep = none → mfind svo ".text" = some v →
      computeEntry gs svo ep = base_addr + v) ∧
    (mfind gs ep = none → mfind svo ".text" = none →
      computeEntry gs svo ep = base_addr) := by
  refine ⟨?_, ?_, ?_, ?_, ?_⟩ <;> intro h1 h2 <;>
    first
    | (intro h3; simp [computeEntry, h1, h2, h3])
    | simp [computeEntry, h1, h2]

/-- Witness for the amended C5: a present-but-undefined `_start` (empty section,
offset 8) yields entry `0x400008` even though `.text` is laid out at offset 0. -/
theorem C5_witness :
    computeEntry [("_start", { name := "_start", type := SymbolType.UNDEFINED, sec := "",
                               offset := 8 })]
      [(".text", 0)] "_start" = base_addr + 8 := by
  exact (C5_entry_characterization _ [(".text", 0)] "_start"
    { name := "_start", type := SymbolType.UNDEFINED, sec := "", offset := 8 } 0).2.2.1
    (by decide) (by decide)

/-! ## C6: which symbols take the local path (claim corrected) -/

/-- The C6 counterexample input: a symbol with binding `LOCAL` but a name (`foo`) that
does not begin with a dot. -/
def cex6_obj : FLEObject :=
  FLEObject.mk "a.o" ".o"
    [(".text", { name := ".text", data := [0, 0, 0, 0, 0, 0, 0, 0], relocs := [],
                 has_symbols := true })]
    [{ name := "foo", type := SymbolType.LOCAL, sec := ".text", offset := 0 }]
    [] [] [] 0

/-- Counterexample to C6 as stated: the `LOCAL`-bound symbol `foo` (no dot) IS entered
into the global resolution table and is NOT stored in the per-object local table —
`ld.cpp` 171 tests only `sym.name[0] == '.'`, never the binding. -/
theorem C6_counterexample :
    symKeysOf (buildSymbolTables [cex6_obj] (mergeStage1 [cex6_obj]).section_offsets) =
      ["foo"] ∧
    localsOf (buildSymbolTables [cex6_obj] (mergeStage1 [cex6_obj]).section_offsets) =
      [[]] := by
  refine ⟨by decide, by decide⟩

/-- C6 amended: only symbols whose NAME begins with `.` take the local path — they are
stored in the owning object's local table with the merge-buffer offset rewrite, a copy
with binding forced to `local` is appended to the output symbol list, and the global
table is left untouched. Symbols with `local` binding but a non-dot name instead go
through global resolution. -/
theorem C6_dot_symbols_local (so : List ((Nat × String) × Nat)) (obj_idx : Nat)
    (st : SymSt) (sym : Symbol) (hdot : strIsPrefixOf "." sym.name = true) :
    ∃ st', processSymbol so obj_idx st sym = .ok st' ∧
      st'.global_symbols = st.global_symbols ∧
      st'.output_symbols = st.output_symbols ++
        [{ rewriteOffset so obj_idx sym with type := SymbolType.LOCAL }] ∧
      st'.local_symbols_by_obj = st.local_symbols_by_obj.set obj_idx
        (hinsert (st.local_symbols_by_obj.getD obj_idx []) sym.name
          (rewriteOffset so obj_idx sym)) := by
  refine ⟨{ global_symbols := st.global_symbols,
            output_symbols := st.output_symbols ++
              [{ rewriteOffset so obj_idx sym with type := SymbolType.LOCAL }],
            local_symbols_by_obj := st.local_symbols_by_obj.set obj_idx
              (hinsert (st.local_symbols_by_obj.getD obj_idx []) sym.name
                (rewriteOffset so obj_idx sym)) }, ?_, rfl, rfl, rfl⟩
  simp [processSymbol, hdot]

/-- Witness for the amended C6: the dot-prefixed label `.L0` of object 0 lands in that
object's local table, a `local` copy is appended, and the global table stays empty. -/
theorem C6_witness :
    ∃ st', processSymbol [((0, ".text"), 8)] 0 ⟨[], [], [[]]⟩
        { name := ".L0", type := SymbolType.LOCAL, sec := ".text", offset := 3 } = .ok st' ∧
      st'.global_symbols = [] ∧
      st'.output_symbols = [{ name := ".L0", type := SymbolType.LOCAL, sec := ".text",
                              offset := 11 }] ∧
      st'.local_symbols_by_obj = [[(".L0", { name := ".L0", type := SymbolType.LOCAL,
                                             sec := ".text", offset := 11 })]] := by
  obtain ⟨st', h1, h2, h3, h4⟩ := C6_dot_symbols_local [((0, ".text"), 8)] 0 ⟨[], [], [[]]⟩
    { name := ".L0", type := SymbolType.LOCAL, sec := ".text", offset := 3 } (by decide)
  refine ⟨st', h1, ?_, ?_, ?_⟩
  · rw [h2]
  · rw [h3]; decide
  · rw [h4]; decide

/-! ## C7: relocations in `.bss` (claim corrected) -/

/-- The C7 counterexample input: `.bss` carries a relocation whose target `foo` is
nowhere defined; `.text` defines `_start` so the rest of the link is healthy. -/
def cex7_obj : FLEObject :=
  FLEObject.mk "a.o" ".o"
    [(".bss", { name := ".bss", data := [],
                relocs := [{ type := RelocationType.R_X86_64_64, offset := 0,
                             symbol := "foo", addend := 0 }],
                has_symbols := false }),
     (".text", { name := ".text", data := [0x90], relocs := [], has_symbols := true })]
    [{ name := "_start", type := SymbolType.GLOBAL, sec := ".text", offset := 0 }]
    [] [] [] 0

/-- Counterexample to C7 as stated: a `.bss` relocation on an unresolvable symbol is NOT
skipped silently — target resolution (`ld.cpp` 478–499) runs before the `.bss` test
(`ld.cpp` 503) and the executable link aborts with `Undefined symbol`. -/
theorem C7_counterexample :
    ldErr (FLE_ld [cex7_obj] cexOptsExe) = some "Undefined symbol: foo" := by
  decide

/-- C7 amended: a relocation in the `.bss` output section is skipped without modifying
any bytes and without error PROVIDED its target resolves (or is skipped as a
shared-output undefined global); when target resolution fails, the error surfaces even
for `.bss` relocations, because resolution precedes the `.bss` test. -/
theorem C7_bss_skip_after_resolution (ctx : LinkCtx) (osn : String) (data : List Nat)
    (reloc : Relocation) (S : Nat) (e : String) :
    (resolveTarget ctx ".bss" reloc = .ok S →
      applyOneReloc ctx ".bss" data reloc = .ok data) ∧
    (resolveTarget ctx osn reloc = .skip →
      applyOneReloc ctx osn data reloc = .ok data) ∧
    (resolveTarget ctx osn reloc = .err e →
      applyOneReloc ctx osn data reloc = .error e) := by
  refine ⟨?_, ?_, ?_⟩ <;> intro h <;> simp [applyOneReloc, h]

/-- Witness for the amended C7: with `f` resolving to the base address, an 8-byte patch
inside `.bss` leaves the (empty) buffer untouched and raises nothing. -/
theorem C7_witness :
    applyOneReloc
        { all_objects := [], merged_sections := [], section_offsets := [],
          section_sizes := [], local_symbols_by_obj := [],
          global_symbols := [("f", { name := "f", type := SymbolType.GLOBAL, sec := "",
                                     offset := 0 })],
          catst := ⟨[], [], []⟩, lay := ⟨[], [], [], []⟩, merged_sec_vaddr := [],
          shared := false }
        ".bss" []
        { type := RelocationType.R_X86_64_64, offset := 0, symbol := "f", addend := 0 } =
      .ok [] := by
  exact (C7_bss_skip_after_resolution _ ".bss" [] _ 0x400000 "").1 (by decide)


/-! ## C8: archive resolution to fixed point -/

/-- A member scan that pulled nothing leaves the whole state untouched. -/
theorem processMembers_not_used (members : List FLEObject) (r u : List String)
    (o : List FLEObject) (h : (processMembers members r u o).used = false) :
    processMembers members r u o = ⟨r, u, o, false⟩ := by
  induction members with
  | nil => rfl
  | cons m rest ih =>
    by_cases hd : definesNeeded m u = true
    · exfalso
      rw [processMembers] at h
      simp only [hd, if_pos] at h
      simp at h
    · rw [processMembers] at h ⊢
      simp only [hd, Bool.false_eq_true, ite_false] at h ⊢
      exact ih h

/-- A pass that pulled nothing leaves the whole state untouched. -/
theorem onePass_not_changed (archives : List FLEObject) (r u : List String)
    (o : List FLEObject) (h : (onePass archives r u o).changed = false) :
    onePass archives r u o = ⟨archives, r, u, o, false⟩ := by
  induction archives generalizing r u o with
  | nil => rfl
  | cons a rest ih =>
    rw [onePass] at h ⊢
    by_cases hu : (processMembers a.members r u o).used = true
    · simp [hu] at h
    · have hm := processMembers_not_used a.members r u o (by simpa using hu)
      rw [hm] at h ⊢
      simp only [Bool.false_eq_true, ite_false] at h ⊢
      have hp := ih r u o h
      rw [hp]

/-- With fuel exceeding the archive count, the loop lands on a fixed point of the pass
function — this is the termination argument of the `do … while (changed)` loop. -/
theorem archiveLoopF_fixpoint (fuel : Nat) :
    ∀ (archives : List FLEObject) (r u : List String) (o : List FLEObject),
      archives.length < fuel →
      onePass (archiveLoopF fuel archives r u o).archives
          (archiveLoopF fuel archives r u o).resolved
          (archiveLoopF fuel archives r u o).undefined
          (archiveLoopF fuel archives r u o).objs =
        ⟨(archiveLoopF fuel archives r u o).archives
         , (archiveLoopF fuel archives r u o).resolved
         , (archiveLoopF fuel archives r u o).undefined
         , (archiveLoopF fuel archives r u o).objs, false⟩ := by
  induction fuel with
  | zero => intro archives r u o h; omega
  | succ f ih =>
    intro archives r u o h
    rw [archiveLoopF]
    by_cases hc : (onePass archives r u o).changed = true
    · simp only [hc, if_pos]
      have hlt := onePass_changed_length_lt archives r u o hc
      exact ih _ _ _ _ (by omega)
    · have hp := onePass_not_changed archives r u o (by simpa using hc)
      rw [hp]
      simp only [Bool.false_eq_true, ite_false]
      rw [hp]

/-- C8: archive resolution. (1) A member at the head of the scan is pulled — with both
sets updated and the member appended — exactly when `definesNeeded` holds at that
moment, and is passed over with nothing changed otherwise; (2) `definesNeeded` holds iff
the member has a symbol with nonempty, non-dot name, binding neither local nor
undefined, whose name is in the current undefined set; (3) the fixed-point loop stops
exactly at a state the pass no longer changes; (4) an empty participating set makes
`FLE_ld` fail with no-input. -/
theorem C8_archive_resolution :
    (∀ (m : FLEObject) (ms : List FLEObject) (r u : List String) (o : List FLEObject),
      (definesNeeded m u = true →
        processMembers (m :: ms) r u o =
          { processMembers ms (pullUpdate r u m).1 (pullUpdate r u m).2 (o ++ [m]) with
            used := true }) ∧
      (definesNeeded m u = false →
        processMembers (m :: ms) r u o = processMembers ms r u o)) ∧
    (∀ (m : FLEObject) (u : List String),
      definesNeeded m u = true ↔ ∃ sym ∈ m.symbols,
        sym.name ≠ "" ∧ strIsPrefixOf "." sym.name = false ∧
        sym.type ≠ SymbolType.LOCAL ∧ sym.type ≠ SymbolType.UNDEFINED ∧
        scount u sym.name = true) ∧
    (∀ (archives : List FLEObject) (r u : List String) (o : List FLEObject),
      onePass (archiveLoop archives r u o).archives (archiveLoop archives r u o).resolved
          (archiveLoop archives r u o).undefined (archiveLoop archives r u o).objs =
        ⟨(archiveLoop archives r u o).archives, (archiveLoop archives r u o).resolved,
         (archiveLoop archives r u o).undefined, (archiveLoop archives r u o).objs,
         false⟩) ∧
    (∀ (objects : List FLEObject) (options : LinkerOptions),
      resolveParticipating objects = [] →
      FLE_ld objects options = .error "No input objects to link") := by
  refine ⟨?_, ?_, ?_, ?_⟩
  · intro m ms r u o
    constructor
    · intro hd
      rw [processMembers]
      simp [hd]
    · intro hd
      rw [processMembers]
      simp [hd]
  · intro m u
    unfold definesNeeded
    rw [List.any_eq_true]
    constructor
    · rintro ⟨sym, hmem, hp⟩
      refine ⟨sym, hmem, ?_⟩
      unfold skipSeed at hp
      simp only [Bool.and_eq_true, Bool.not_eq_true', Bool.or_eq_false_iff,
        decide_eq_true_eq, decide_eq_false_iff_not] at hp
      exact ⟨hp.1.1.1.1, hp.1.1.1.2, hp.1.1.2, hp.1.2, hp.2⟩
    · rintro ⟨sym, hmem, h1, h2, h3, h4, h5⟩
      refine ⟨sym, hmem, ?_⟩
      unfold skipSeed
      simp only [Bool.and_eq_true, Bool.not_eq_true', Bool.or_eq_false_iff,
        decide_eq_true_eq, decide_eq_false_iff_not]
      exact ⟨⟨⟨⟨h1, h2⟩, h3⟩, h4⟩, h5⟩
  · intro archives r u o
    exact archiveLoopF_fixpoint (archives.length + 1) archives r u o (Nat.lt_succ_self _)
  · intro objects options h
    simp [FLE_ld, h]

/-- The C8 witness archive: its only member defines `bar`, which nothing demands, so no
pass pulls it and the participating set stays empty. -/
def cex8_archive : FLEObject :=
  FLEObject.mk "lib.a" ".ar" [] []
    [FLEObject.mk "m.o" ".o"
      [(".text", { name := ".text", data := [1], relocs := [], has_symbols := true })]
      [{ name := "bar", type := SymbolType.GLOBAL, sec := ".text", offset := 0 }]
      [] [] [] 0]
    [] [] 0

/-- Witness for C8: linking just that archive yields an empty participating set and the
no-input failure. -/
theorem C8_witness :
    FLE_ld [cex8_archive] cexOptsExe = .error "No input objects to link" := by
  exact C8_archive_resolution.2.2.2 [cex8_archive] cexOptsExe rfl


/-! ## C3: layout -/

/-- `align_to` at zero. -/
theorem align_to_zero : align_to 0 PAGE_SIZE = 0 := by decide

/-- `align_to` commutes with adding a multiple of the alignment on the left. -/
theorem align_to_add_left (b x a : Nat) (ha : 0 < a) (hb : b % a = 0) :
    align_to (b + x) a = b + align_to x a := by
  unfold align_to
  have h1 : b + x + a - 1 = b + (x + a - 1) := by omega
  have h2 : (b + (x + a - 1)) % a = (x + a - 1) % a := by
    rw [Nat.add_mod, hb, Nat.zero_add, Nat.mod_mod]
  have h3 : (x + a - 1) % a ≤ x + a - 1 := Nat.mod_le _ _
  rw [h1, h2]
  omega

/-- Transfer a chain along a map when the relation transfer is available for members. -/
theorem chain'_transfer {α β : Type} (f : α → β) (S : α → α → Prop) (R : β → β → Prop) :
    ∀ (l : List α), List.Chain' S l →
      (∀ a, a ∈ l → ∀ b, b ∈ l → S a b → R (f a) (f b)) →
      List.Chain' R (l.map f)
  | [], _, _ => List.chain'_nil
  | [x], _, _ => by simp
  | x :: y :: t, h, hmem => by
    rw [List.map_cons, List.map_cons, List.chain'_cons]
    rcases List.chain'_cons.mp h with ⟨hxy, ht⟩
    refine ⟨hmem x (by simp) y (by simp) hxy, ?_⟩
    rw [← List.map_cons]
    exact chain'_transfer f S R (y :: t) ht
      (fun a ha b hb hs => hmem a (List.mem_cons_of_mem x ha) b (List.mem_cons_of_mem x hb) hs)

/-- One bookkeeping row per laid-out section: name, vaddr offset, file offset, memory
size. -/
abbrev LayRow : Type := String × Nat × Nat × Nat

/-- The induction invariant of the layout fold: a ghost row list mirrors the recorded
tables, rows satisfy the alignment chain, the head row sits at vaddr offset 0, the
cursors agree with the last row, the non-`.bss` file offsets advance cumulatively, and
every `.bss` row has file offset 0 and the summed `.bss` input size. -/
def layInv (ms : List (String × FLESection)) (st : LayoutSt) (v f : Nat) : Prop :=
  ∃ rows : List LayRow,
    st.out_sec_names = rows.map (fun r => r.1) ∧
    (∀ r ∈ rows, mfind st.section_vaddr_offsets r.1 = some r.2.1 ∧
      mfind st.section_file_offsets r.1 = some r.2.2.1 ∧
      mfind st.section_mem_sizes r.1 = some r.2.2.2) ∧
    List.Chain' (fun a b => b.2.1 = align_to (a.2.1 + a.2.2.2) PAGE_SIZE) rows ∧
    (∀ r, rows.head? = some r → r.2.1 = 0) ∧
    (rows.getLast? = none → v = 0) ∧
    (∀ r, rows.getLast? = some r → v = r.2.1 + r.2.2.2) ∧
    List.Chain' (fun a b => a.1 ≠ ".bss" → b.1 ≠ ".bss" → b.2.2.1 = a.2.2.1 + a.2.2.2) rows ∧
    (∀ r, rows.head? = some r → r.1 ≠ ".bss" → r.2.2.1 = 0) ∧
    (rows = [] → f = 0) ∧
    (∀ r, rows.getLast? = some r → r.1 ≠ ".bss" → f = r.2.2.1 + r.2.2.2) ∧
    (∀ r ∈ rows, r.1 = ".bss" → r.2.2.1 = 0 ∧ r.2.2.2 = bssMergedSize ms)

/-- Appending one fresh row preserves all the row-list facts of `layInv`, given the new
row is placed at the aligned cursor, takes the incoming file offset (or 0 for `.bss`),
and the cursors move as `layoutStep` moves them. -/
theorem layInv_append (ms : List (String × FLESection)) (rows : List LayRow)
    (svo sfo sms : List (String × Nat)) (v f : Nat) (row : LayRow)
    (hlook : ∀ r ∈ rows, mfind svo r.1 = some r.2.1 ∧ mfind sfo r.1 = some r.2.2.1 ∧
      mfind sms r.1 = some r.2.2.2)
    (hchv : List.Chain' (fun a b => b.2.1 = align_to (a.2.1 + a.2.2.2) PAGE_SIZE) rows)
    (hheadv : ∀ r, rows.head? = some r → r.2.1 = 0)
    (hlast0 : rows.getLast? = none → v = 0)
    (hlastv : ∀ r, rows.getLast? = some r → v = r.2.1 + r.2.2.2)
    (hchf : List.Chain' (fun a b => a.1 ≠ ".bss" → b.1 ≠ ".bss" →
      b.2.2.1 = a.2.2.1 + a.2.2.2) rows)
    (hheadf : ∀ r, rows.head? = some r → r.1 ≠ ".bss" → r.2.2.1 = 0)
    (hf0 : rows = [] → f = 0)
    (hlastf : ∀ r, rows.getLast? = some r → r.1 ≠ ".bss" → f = r.2.2.1 + r.2.2.2)
    (hbss : ∀ r ∈ rows, r.1 = ".bss" → r.2.2.1 = 0 ∧ r.2.2.2 = bssMergedSize ms)
    (hfreshrow : ∀ r ∈ rows, r.1 ≠ row.1)
    (hrowv : row.2.1 = align_to v PAGE_SIZE)
    (hrowf : (row.1 = ".bss" → row.2.2.1 = 0 ∧ row.2.2.2 = bssMergedSize ms) ∧
      (row.1 ≠ ".bss" → row.2.2.1 = f)) :
    (∀ r ∈ rows ++ [row],
      mfind (minsert svo row.1 row.2.1) r.1 = some r.2.1 ∧
      mfind (minsert sfo row.1 row.2.2.1) r.1 = some r.2.2.1 ∧
      mfind (minsert sms row.1 row.2.2.2) r.1 = some r.2.2.2) ∧
    List.Chain' (fun a b => b.2.1 = align_to (a.2.1 + a.2.2.2) PAGE_SIZE) (rows ++ [row]) ∧
    (∀ r, (rows ++ [row]).head? = some r → r.2.1 = 0) ∧
    ((rows ++ [row]).getLast? = none → row.2.1 + row.2.2.2 = 0) ∧
    (∀ r, (rows ++ [row]).getLast? = some r → row.2.1 + row.2.2.2 = r.2.1 + r.2.2.2) ∧
    List.Chain' (fun a b => a.1 ≠ ".bss" → b.1 ≠ ".bss" → b.2.2.1 = a.2.2.1 + a.2.2.2)
      (rows ++ [row]) ∧
    (∀ r, (rows ++ [row]).head? = some r → r.1 ≠ ".bss" → r.2.2.1 = 0) ∧
    (∀ r, (rows ++ [row]).getLast? = some r → r.1 ≠ ".bss" →
      row.2.2.1 + row.2.2.2 = r.2.2.1 + r.2.2.2) ∧
    (∀ r ∈ rows ++ [row], r.1 = ".bss" → r.2.2.1 = 0 ∧ r.2.2.2 = bssMergedSize ms) := by
  have hglast : (rows ++ [row]).getLast? = some row := by
    rw [List.getLast?_concat]
  refine ⟨?_, ?_, ?_, ?_, ?_, ?_, ?_, ?_, ?_⟩
  · intro r hr
    rcases List.mem_append.mp hr with hr | hr
    · obtain ⟨h1, h2, h3⟩ := hlook r hr
      exact ⟨(mfind_minsert_ne _ _ _ _ (hfreshrow r hr)).trans h1,
        (mfind_minsert_ne _ _ _ _ (hfreshrow r hr)).trans h2,
        (mfind_minsert_ne _ _ _ _ (hfreshrow r hr)).trans h3⟩
    · simp only [List.mem_singleton] at hr
      subst hr
      exact ⟨mfind_minsert_self _ _ _, mfind_minsert_self _ _ _, mfind_minsert_self _ _ _⟩
  · rw [List.chain'_append]
    refine ⟨hchv, by simp, ?_⟩
    intro x hx y hy
    simp only [List.head?_cons, Option.mem_def, Option.some.injEq] at hy
    subst hy
    rcases hrows : rows.getLast? with _ | r
    · simp [hrows] at hx
    · simp only [hrows, Option.mem_def, Option.some.injEq] at hx
      subst hx
      rw [hrowv, hlastv _ hrows]
  · intro r hr
    cases rows with
    | nil =>
      simp only [List.nil_append, List.head?_cons, Option.some.injEq] at hr
      subst hr
      rw [hrowv, hlast0 (by simp), align_to_zero]
    | cons a t =>
      simp only [List.cons_append, List.head?_cons, Option.some.injEq] at hr
      exact hheadv r (by simp [hr])
  · intro h
    rw [hglast] at h
    cases h
  · intro r hr
    rw [hglast] at hr
    cases hr
    rfl
  · rw [List.chain'_append]
    refine ⟨hchf, by simp, ?_⟩
    intro x hx y hy
    simp only [List.head?_cons, Option.mem_def, Option.some.injEq] at hy
    subst hy
    intro hx1 hy1
    rcases hrows : rows.getLast? with _ | r
    · simp [hrows] at hx
    · simp only [hrows, Option.mem_def, Option.some.injEq] at hx
      subst hx
      rw [hrowf.2 hy1, hlastf _ hrows hx1]
  · intro r hr hne
    cases rows with
    | nil =>
      simp only [List.nil_append, List.head?_cons, Option.some.injEq] at hr
      subst hr
      rw [hrowf.2 hne, hf0 rfl]
    | cons a t =>
      simp only [List.cons_append, List.head?_cons, Option.some.injEq] at hr
      exact hheadf r (by simp [hr]) hne
  · intro r hr hne
    rw [hglast] at hr
    cases hr
    rfl
  · intro r hr hb
    rcases List.mem_append.mp hr with hr | hr
    · exact hbss r hr hb
    · simp only [List.mem_singleton] at hr
      subst hr
      exact hrowf.1 hb

/-- The layout step preserves the invariant on a fresh section name. -/
theorem layInv_step (out ms : List (String × FLESection)) (st : LayoutSt) (v f : Nat)
    (n : String) (hinv : layInv ms st v f) (hfresh : n ∉ st.out_sec_names) :
    layInv ms (layoutStep out ms (st, v, f) n).1 (layoutStep out ms (st, v, f) n).2.1
      (layoutStep out ms (st, v, f) n).2.2 := by
  obtain ⟨rows, hnames, hlook, hchv, hheadv, hlast0, hlastv, hchf, hheadf, hf0, hlastf,
    hbss⟩ := hinv
  rcases hout : mfind out n with _ | sec
  · simpa [layoutStep, hout] using
      ⟨rows, hnames, hlook, hchv, hheadv, hlast0, hlastv, hchf, hheadf, hf0, hlastf, hbss⟩
  · have hfreshrow : ∀ r ∈ rows, r.1 ≠ n := by
      intro r hr heq
      exact hfresh (hnames ▸ (List.mem_map.mpr ⟨r, hr, heq⟩))
    by_cases hn : n = ".bss"
    · subst hn
      have hstep : layoutStep out ms (st, v, f) ".bss" =
          ({ section_vaddr_offsets :=
               minsert st.section_vaddr_offsets ".bss" (align_to v PAGE_SIZE)
             section_file_offsets := minsert st.section_file_offsets ".bss" 0
             section_mem_sizes := minsert st.section_mem_sizes ".bss" (bssMergedSize ms)
             out_sec_names := st.out_sec_names ++ [".bss"] },
            align_to v PAGE_SIZE + bssMergedSize ms, f) := by
        simp [layoutStep, hout]
      rw [hstep]
      obtain ⟨g1, g2, g3, g4, g5, g6, g7, g8, g9⟩ := layInv_append ms rows
        st.section_vaddr_offsets st.section_file_offsets st.section_mem_sizes v f
        (".bss", align_to v PAGE_SIZE, 0, bssMergedSize ms)
        hlook hchv hheadv hlast0 hlastv hchf hheadf hf0 hlastf hbss hfreshrow rfl
        ⟨fun _ => ⟨rfl, rfl⟩, fun h => absurd rfl h⟩
      refine ⟨rows ++ [(".bss", align_to v PAGE_SIZE, 0, bssMergedSize ms)],
        by simp [hnames], g1, g2, g3, ?_, ?_, g6, g7, by simp, ?_, g9⟩
      · intro h
        exact g4 h
      · intro r hr
        exact g5 r hr
      · intro r hr hne
        rw [List.getLast?_concat] at hr
        cases hr
        exact absurd rfl hne
    · have hstep : layoutStep out ms (st, v, f) n =
          ({ section_vaddr_offsets :=
               minsert st.section_vaddr_offsets n (align_to v PAGE_SIZE)
             section_file_offsets := minsert st.section_file_offsets n f
             section_mem_sizes := minsert st.section_mem_sizes n sec.data.length
             out_sec_names := st.out_sec_names ++ [n] },
            align_to v PAGE_SIZE + sec.data.length, f + sec.data.length) := by
        simp [layoutStep, hout, hn]
      rw [hstep]
      obtain ⟨g1, g2, g3, g4, g5, g6, g7, g8, g9⟩ := layInv_append ms rows
        st.section_vaddr_offsets st.section_file_offsets st.section_mem_sizes v f
        (n, align_to v PAGE_SIZE, f, sec.data.length)
        hlook hchv hheadv hlast0 hlastv hchf hheadf hf0 hlastf hbss hfreshrow rfl
        ⟨fun h => absurd h hn, fun _ => rfl⟩
      refine ⟨rows ++ [(n, align_to v PAGE_SIZE, f, sec.data.length)],
        by simp [hnames], g1, g2, g3, ?_, ?_, g6, g7, by simp, ?_, g9⟩
      · intro h
        exact g4 h
      · intro r hr
        exact g5 r hr
      · intro r hr hne
        rw [List.getLast?_concat] at hr
        cases hr
        rfl

/-- The layout step either records the section (appending its name) or skips it. -/
theorem layoutStep_names (out ms : List (String × FLESection)) (st : LayoutSt)
    (v f : Nat) (n : String) :
    (layoutStep out ms (st, v, f) n).1.out_sec_names = st.out_sec_names ∨
    (layoutStep out ms (st, v, f) n).1.out_sec_names = st.out_sec_names ++ [n] := by
  rcases hout : mfind out n with _ | sec
  · left
    simp [layoutStep, hout]
  · right
    by_cases hn : n = ".bss"
    · subst hn
      simp [layoutStep, hout]
    · simp [layoutStep, hout, hn]

/-- The layout fold records exactly the present names, in order. -/
theorem layout_fold_names (out ms : List (String × FLESection)) :
    ∀ (names : List String) (acc : LayoutSt × Nat × Nat),
      (List.foldl (layoutStep out ms) acc names).1.out_sec_names =
        acc.1.out_sec_names ++ names.filter (fun n => (mfind out n).isSome)
  | [], acc => by simp
  | n :: rest, acc => by
    rw [List.foldl_cons, layout_fold_names out ms rest]
    rcases hout : mfind out n with _ | sec
    · have : (layoutStep out ms acc n).1.out_sec_names = acc.1.out_sec_names := by
        simp [layoutStep, hout]
      rw [this, List.filter_cons]
      simp [hout]
    · have : (layoutStep out ms acc n).1.out_sec_names = acc.1.out_sec_names ++ [n] := by
        by_cases hn : n = ".bss"
        · subst hn
          simp [layoutStep, hout]
        · simp [layoutStep, hout, hn]
      rw [this, List.filter_cons]
      simp [hout]

/-- The layout fold preserves the invariant over fresh, duplicate-free names. -/
theorem layInv_fold (out ms : List (String × FLESection)) :
    ∀ (names : List String) (st : LayoutSt) (v f : Nat),
      layInv ms st v f → (∀ n ∈ names, n ∉ st.out_sec_names) → names.Nodup →
      layInv ms (List.foldl (layoutStep out ms) (st, v, f) names).1
        (List.foldl (layoutStep out ms) (st, v, f) names).2.1
        (List.foldl (layoutStep out ms) (st, v, f) names).2.2
  | [], st, v, f, hinv, _, _ => hinv
  | n :: rest, st, v, f, hinv, hfresh, hnd => by
    rw [List.foldl_cons]
    have hstep := layInv_step out ms st v f n hinv (hfresh n (by simp))
    have heta : layoutStep out ms (st, v, f) n =
        ((layoutStep out ms (st, v, f) n).1, (layoutStep out ms (st, v, f) n).2.1,
         (layoutStep out ms (st, v, f) n).2.2) := rfl
    rw [heta]
    apply layInv_fold out ms rest _ _ _ hstep
    · intro n2 hn2 hmem
      rcases layoutStep_names out ms st v f n with h | h
      · rw [h] at hmem
        exact hfresh n2 (by simp [hn2]) hmem
      · rw [h] at hmem
        rcases List.mem_append.mp hmem with hm | hm
        · exact hfresh n2 (by simp [hn2]) hm
        · simp only [List.mem_singleton] at hm
          subst hm
          exact (List.nodup_cons.mp hnd).1 hn2
    · exact (List.nodup_cons.mp hnd).2

/-- C3: the layout assigns, over the present output sections taken in the fixed
`.text .rodata .data .bss` order: the first present section at virtual-address offset 0
(so its vaddr is the base `0x400000`); for every adjacent present pair,
`vaddr(next) = align_up(vaddr(prev) + memsize(prev), 4096)`; `.bss` gets file offset 0
and memory size equal to the summed sizes of the `.bss*` stage-one buffers (so it
contributes no file bytes); and the other sections take cumulative file offsets starting
at 0 and advancing by their on-disk sizes. -/
theorem C3_layout (output_sections merged_sections : List (String × FLESection)) :
    (layout output_sections merged_sections).out_sec_names =
      output_order.filter (fun n => (mfind output_sections n).isSome) ∧
    (∀ n, (layout output_sections merged_sections).out_sec_names.head? = some n →
      mfind (layout output_sections merged_sections).section_vaddr_offsets n = some 0) ∧
    List.Chain' (fun pn nn =>
      base_addr + mgetD (layout output_sections merged_sections).section_vaddr_offsets nn 0 =
        align_to (base_addr +
          mgetD (layout output_sections merged_sections).section_vaddr_offsets pn 0 +
          mgetD (layout output_sections merged_sections).section_mem_sizes pn 0) PAGE_SIZE)
      (layout output_sections merged_sections).out_sec_names ∧
    ((mfind output_sections ".bss").isSome →
      mfind (layout output_sections merged_sections).section_file_offsets ".bss" = some 0 ∧
      mfind (layout output_sections merged_sections).section_mem_sizes ".bss" =
        some (bssMergedSize merged_sections)) ∧
    (∀ n, (layout output_sections merged_sections).out_sec_names.head? = some n →
      n ≠ ".bss" →
      mfind (layout output_sections merged_sections).section_file_offsets n = some 0) ∧
    List.Chain' (fun pn nn => pn ≠ ".bss" → nn ≠ ".bss" →
      mgetD (layout output_sections merged_sections).section_file_offsets nn 0 =
        mgetD (layout output_sections merged_sections).section_file_offsets pn 0 +
        mgetD (layout output_sections merged_sections).section_mem_sizes pn 0)
      (layout output_sections merged_sections).out_sec_names := by
  have hinit : layInv merged_sections ⟨[], [], [], []⟩ 0 0 :=
    ⟨[], rfl, by simp, List.chain'_nil, by simp, fun _ => rfl, by simp, List.chain'_nil,
      by simp, fun _ => rfl, by simp, by simp⟩
  have hfold := layInv_fold output_sections merged_sections output_order ⟨[], [], [], []⟩
    0 0 hinit (by simp) (by decide)
  have hlayeq : layout output_sections merged_sections =
      (List.foldl (layoutStep output_sections merged_sections) (⟨[], [], [], []⟩, 0, 0)
        output_order).1 := rfl
  obtain ⟨rows, hnames, hlook, hchv, hheadv, hlast0, hlastv, hchf, hheadf, hf0, hlastf,
    hbss⟩ := hfold
  rw [← hlayeq] at hnames hlook
  refine ⟨?_, ?_, ?_, ?_, ?_, ?_⟩
  · rw [hlayeq, layout_fold_names]
    rfl
  · intro n hn
    rw [hnames] at hn
    cases rows with
    | nil => cases hn
    | cons r t =>
      simp only [List.map_cons, List.head?_cons, Option.some.injEq] at hn
      subst hn
      rw [(hlook r (by simp)).1, hheadv r rfl]
  · rw [hnames]
    apply chain'_transfer _ (fun a b => b.2.1 = align_to (a.2.1 + a.2.2.2) PAGE_SIZE)
      _ rows hchv
    intro a ha b hb hs
    rw [mgetD, mgetD, mgetD, (hlook a ha).1, (hlook a ha).2.2, (hlook b hb).1]
    simp only [Option.getD_some]
    rw [hs, Nat.add_assoc]
    rw [align_to_add_left base_addr _ PAGE_SIZE (by decide) (by decide)]
  · intro hsome
    have hmem : ".bss" ∈ (layout output_sections merged_sections).out_sec_names := by
      rw [hlayeq, layout_fold_names]
      simp only [List.nil_append]
      apply List.mem_filter.mpr
      exact ⟨by simp [output_order], by simpa using hsome⟩
    rw [hnames] at hmem
    obtain ⟨r, hr, hrn⟩ := List.mem_map.mp hmem
    obtain ⟨hb1, hb2⟩ := hbss r hr hrn
    refine ⟨?_, ?_⟩
    · rw [← hrn, (hlook r hr).2.1, hb1]
    · rw [← hrn, (hlook r hr).2.2, hb2]
  · intro n hn hne
    rw [hnames] at hn
    cases rows with
    | nil => cases hn
    | cons r t =>
      simp only [List.map_cons, List.head?_cons, Option.some.injEq] at hn
      subst hn
      rw [(hlook r (by simp)).2.1, hheadf r rfl hne]
  · rw [hnames]
    apply chain'_transfer _
      (fun a b => a.1 ≠ ".bss" → b.1 ≠ ".bss" → b.2.2.1 = a.2.2.1 + a.2.2.2) _ rows hchf
    intro a ha b hb hs h1 h2
    rw [mgetD, mgetD, mgetD, (hlook a ha).2.1, (hlook a ha).2.2, (hlook b hb).2.1]
    simp only [Option.getD_some]
    exact hs h1 h2

/-- Witness for C3, instantiating the inner hypotheses at a concrete layout: with
`.text` (2 data bytes) and `.bss` present and one 5-byte `.bss` input buffer, `.bss`
gets file offset 0 and memory size 5. -/
theorem C3_witness :
    mfind (layout
        [(".bss", { name := ".bss", data := [], relocs := [], has_symbols := false }),
         (".text", { name := ".text", data := [1, 2], relocs := [], has_symbols := true })]
        [(".bss", { name := ".bss", data := [0, 0, 0, 0, 0], relocs := [],
                    has_symbols := false })]).section_file_offsets ".bss" = some 0 ∧
    mfind (layout
        [(".bss", { name := ".bss", data := [], relocs := [], has_symbols := false }),
         (".text", { name := ".text", data := [1, 2], relocs := [], has_symbols := true })]
        [(".bss", { name := ".bss", data := [0, 0, 0, 0, 0], relocs := [],
                    has_symbols := false })]).section_mem_sizes ".bss" =
      some (bssMergedSize
        [(".bss", { name := ".bss", data := [0, 0, 0, 0, 0], relocs := [],
                    has_symbols := false })]) := by
  exact (C3_layout _ _).2.2.2.1 (by decide)


/-! ## C10 support: string order facts and sorted-map sums -/

/-- `strLt` is irreflexive. -/
theorem strLt_irrefl (a : String) : strLt a a = false :=
  listLtChar_irrefl a.data

/-- `strLt` is transitive. -/
theorem strLt_trans (a b c : String) (h1 : strLt a b = true) (h2 : strLt b c = true) :
    strLt a c = true :=
  listLtChar_trans a.data b.data c.data h1 h2

/-- Two strings neither of which is below the other are equal. -/
theorem strLt_conn (a b : String) (h1 : strLt a b = false) (h2 : strLt b a = false) :
    a = b := by
  cases a with
  | mk da =>
    cases b with
    | mk db =>
      have := listLtChar_conn da db h1 h2
      rw [this]

/-- A strictly smaller key is distinct. -/
theorem ne_of_strLt (a b : String) (h : strLt a b = true) : a ≠ b := by
  intro heq
  subst heq
  rw [strLt_irrefl] at h
  cases h

/-- Keys of an association list are strictly sorted. -/
def msorted {α : Type} (m : List (String × α)) : Prop :=
  List.Pairwise (fun a b => strLt a.1 b.1 = true) m

/-- Members of an insertion come from the insertion or the original list. -/
theorem mem_minsert {α : Type} (m : List (String × α)) (k : String) (v : α) :
    ∀ p ∈ minsert m k v, p = (k, v) ∨ p ∈ m := by
  induction m with
  | nil => intro p hp; simpa [minsert] using hp
  | cons q rest ih =>
    intro p hp
    by_cases h1 : k = q.1
    · simp only [minsert, h1, if_pos] at hp
      rcases List.mem_cons.mp hp with hp | hp
      · left; rw [hp, h1]
      · right; exact List.mem_cons_of_mem q hp
    · by_cases h2 : strLt k q.1 = true
      · simp only [minsert, h1, h2, if_pos, reduceIte] at hp
        rcases List.mem_cons.mp hp with hp | hp
        · left; exact hp
        · right; exact hp
      · simp only [minsert, h1, h2, reduceIte] at hp
        rcases List.mem_cons.mp hp with hp | hp
        · right; rw [hp]; exact List.mem_cons_self q rest
        · rcases ih p hp with h | h
          · left; exact h
          · right; exact List.mem_cons_of_mem q h

/-- Insertion keeps the keys strictly sorted. -/
theorem msorted_minsert {α : Type} (m : List (String × α)) (k : String) (v : α)
    (hs : msorted m) : msorted (minsert m k v) := by
  induction m with
  | nil => simp [minsert, msorted]
  | cons q rest ih =>
    rcases List.pairwise_cons.mp hs with ⟨hq, hrest⟩
    by_cases h1 : k = q.1
    · simp only [minsert, h1, if_pos]
      exact List.pairwise_cons.mpr ⟨fun p hp => by simpa [h1] using hq p hp, hrest⟩
    · by_cases h2 : strLt k q.1 = true
      · simp only [minsert, h1, h2, if_pos, reduceIte]
        refine List.pairwise_cons.mpr ⟨?_, hs⟩
        intro p hp
        rcases List.mem_cons.mp hp with hp | hp
        · rw [hp]; exact h2
        · exact strLt_trans _ _ _ h2 (hq p hp)
      · simp only [minsert, h1, h2, reduceIte]
        refine List.pairwise_cons.mpr ⟨?_, ih hrest⟩
        intro p hp
        rcases mem_minsert rest k v p hp with hp | hp
        · rw [hp]
          have hqk : strLt q.1 k = true := by
            rcases hqk2 : strLt q.1 k with _ | _
            · exfalso
              exact h1 (strLt_conn k q.1 (by simpa using h2) hqk2)
            · rfl
          exact hqk
        · exact hq p hp

/-- A key strictly below every key of the list is absent. -/
theorem mfind_none_of_lt_all {α : Type} (m : List (String × α)) (k : String)
    (h : ∀ p ∈ m, strLt k p.1 = true) : mfind m k = none := by
  induction m with
  | nil => rfl
  | cons q rest ih =>
    have hne : q.1 ≠ k := (ne_of_strLt k q.1 (h q (by simp))).symm
    simp only [mfind, hne, reduceIte]
    exact ih (fun p hp => h p (List.mem_cons_of_mem q hp))

/-- Contribution of one input section to the `.bss` total. -/
def bssContrib (k : String) (s : FLESection) : Nat :=
  if strIsPrefixOf ".bss" k then s.data.length else 0

/-- The empty section contributes nothing. -/
theorem bssContrib_emptySec (k : String) : bssContrib k (emptySec k) = 0 := by
  unfold bssContrib emptySec
  split <;> rfl

/-- `bssMergedSize` is the summed contribution of the buffers. -/
theorem bssMergedSize_eq_sum (m : List (String × FLESection)) :
    bssMergedSize m = (m.map (fun p => bssContrib p.1 p.2)).sum := by
  have haux : ∀ (l : List (String × FLESection)) (a : Nat),
      List.foldl (fun a p => if strIsPrefixOf ".bss" p.1 then a + p.2.data.length else a)
        a l = a + (l.map (fun p => bssContrib p.1 p.2)).sum := by
    intro l
    induction l with
    | nil => intro a; simp
    | cons q rest ih =>
      intro a
      rw [List.foldl_cons, ih, List.map_cons, List.sum_cons]
      unfold bssContrib
      split <;> omega
  unfold bssMergedSize
  rw [haux]
  omega

/-- How one sorted insertion moves the `.bss` total: the inserted value's contribution
replaces the overwritten one's. -/
theorem bssSum_minsert (m : List (String × FLESection)) (k : String) (v : FLESection)
    (hs : msorted m) :
    ((minsert m k v).map (fun p => bssContrib p.1 p.2)).sum +
      bssContrib k ((mfind m k).getD (emptySec k)) =
    (m.map (fun p => bssContrib p.1 p.2)).sum + bssContrib k v := by
  induction m with
  | nil =>
    simp [minsert, mfind, bssContrib_emptySec]
  | cons q rest ih =>
    obtain ⟨qk, qv⟩ := q
    rcases List.pairwise_cons.mp hs with ⟨hq, hrest⟩
    by_cases h1 : k = qk
    · subst h1
      have hmin : minsert ((k, qv) :: rest) k v = (k, v) :: rest := by
        simp [minsert]
      have hfind : mfind ((k, qv) :: rest) k = some qv := by
        simp [mfind]
      rw [hmin, hfind]
      simp only [Option.getD_some, List.map_cons, List.sum_cons]
      omega
    · by_cases h2 : strLt k qk = true
      · have hall : ∀ p ∈ (qk, qv) :: rest, strLt k p.1 = true := by
          intro p hp
          rcases List.mem_cons.mp hp with hp | hp
          · rw [hp]; exact h2
          · exact strLt_trans _ _ _ h2 (hq p hp)
        have hfind : mfind ((qk, qv) :: rest) k = none := mfind_none_of_lt_all _ k hall
        have hmin : minsert ((qk, qv) :: rest) k v = (k, v) :: (qk, qv) :: rest := by
          simp [minsert, h1, h2]
        rw [hmin, hfind]
        simp only [Option.getD_none, bssContrib_emptySec, List.map_cons, List.sum_cons]
        omega
      · have hne : qk ≠ k := fun hh => h1 hh.symm
        have hfind : mfind ((qk, qv) :: rest) k = mfind rest k := by
          simp [mfind, hne]
        have hmin : minsert ((qk, qv) :: rest) k v = (qk, qv) :: minsert rest k v := by
          simp [minsert, h1, h2]
        rw [hmin, hfind]
        simp only [List.map_cons, List.sum_cons]
        have := ih hrest
        omega

/-- One stage-one merge step adds exactly the incoming section's `.bss` contribution,
and keeps the buffer keys sorted. -/
theorem bssSum_mergeObjSection (i : Nat) (st : MergeSt) (p : String × FLESection)
    (hs : msorted st.merged_sections) :
    msorted (mergeObjSection i st p).merged_sections ∧
    bssMergedSize (mergeObjSection i st p).merged_sections =
      bssMergedSize st.merged_sections + bssContrib p.1 p.2 := by
  rcases hfind : mfind st.merged_sections p.1 with _ | s
  · have hms : (mergeObjSection i st p).merged_sections =
        minsert st.merged_sections p.1
          { name := p.1
            data := [] ++ p.2.data
            relocs := [] ++ p.2.relocs.map (fun r => { r with offset := r.offset + 0 })
            has_symbols := p.2.has_symbols } := by
      simp [mergeObjSection, hfind]
    refine ⟨hms ▸ msorted_minsert _ _ _ hs, ?_⟩
    rw [hms, bssMergedSize_eq_sum, bssMergedSize_eq_sum]
    have := bssSum_minsert st.merged_sections p.1
      { name := p.1
        data := [] ++ p.2.data
        relocs := [] ++ p.2.relocs.map (fun r => { r with offset := r.offset + 0 })
        has_symbols := p.2.has_symbols } hs
    rw [hfind] at this
    simp only [Option.getD_none, bssContrib_emptySec] at this
    have hcb : bssContrib p.1
        { name := p.1
          data := [] ++ p.2.data
          relocs := [] ++ p.2.relocs.map (fun r => { r with offset := r.offset + 0 })
          has_symbols := p.2.has_symbols } = bssContrib p.1 p.2 := by
      unfold bssContrib
      split <;> simp
    omega
  · have hms : (mergeObjSection i st p).merged_sections =
        minsert st.merged_sections p.1
          { s with
            data := s.data ++ p.2.data
            relocs := s.relocs ++
              p.2.relocs.map (fun r => { r with offset := r.offset + s.data.length }) } := by
      simp [mergeObjSection, hfind]
    refine ⟨hms ▸ msorted_minsert _ _ _ hs, ?_⟩
    rw [hms, bssMergedSize_eq_sum, bssMergedSize_eq_sum]
    have := bssSum_minsert st.merged_sections p.1
      { s with
        data := s.data ++ p.2.data
        relocs := s.relocs ++
          p.2.relocs.map (fun r => { r with offset := r.offset + s.data.length }) } hs
    rw [hfind] at this
    simp only [Option.getD_some] at this
    have hcb : bssContrib p.1
        { s with
          data := s.data ++ p.2.data
          relocs := s.relocs ++
            p.2.relocs.map (fun r => { r with offset := r.offset + s.data.length }) } =
        bssContrib p.1 s + bssContrib p.1 p.2 := by
      unfold bssContrib
      split <;> simp
    omega

/-- Summed `.bss` contribution of every input section of every participating object. -/
def bssInputTotal (objs : List FLEObject) : Nat :=
  (objs.map (fun o => ((o.sections).map (fun p => bssContrib p.1 p.2)).sum)).sum

/-- One object's stage-one fold adds that object's full `.bss` contribution. -/
theorem bssSum_mergeObj (i : Nat) :
    ∀ (secs : List (String × FLESection)) (st : MergeSt), msorted st.merged_sections →
      msorted (List.foldl (mergeObjSection i) st secs).merged_sections ∧
      bssMergedSize (List.foldl (mergeObjSection i) st secs).merged_sections =
        bssMergedSize st.merged_sections +
          (secs.map (fun p => bssContrib p.1 p.2)).sum
  | [], st, hs => ⟨hs, by simp⟩
  | p :: rest, st, hs => by
    rw [List.foldl_cons]
    obtain ⟨h1, h2⟩ := bssSum_mergeObjSection i st p hs
    obtain ⟨h3, h4⟩ := bssSum_mergeObj i rest (mergeObjSection i st p) h1
    refine ⟨h3, ?_⟩
    rw [h4, h2, List.map_cons, List.sum_cons]
    omega

/-- Stage one accumulates exactly the summed `.bss` contribution of the processed
objects. -/
theorem bssSum_mergeEnum :
    ∀ (l : List (Nat × FLEObject)) (st : MergeSt), msorted st.merged_sections →
      msorted (List.foldl
        (fun st p => (sortedSections p.2).foldl (mergeObjSection p.1) st) st
        l).merged_sections ∧
      bssMergedSize (List.foldl
        (fun st p => (sortedSections p.2).foldl (mergeObjSection p.1) st) st
        l).merged_sections =
        bssMergedSize st.merged_sections +
          (l.map (fun p =>
            ((p.2.sections).map (fun q => bssContrib q.1 q.2)).sum)).sum
  | [], st, hs => ⟨hs, by simp⟩
  | p :: rest, st, hs => by
    rw [List.foldl_cons]
    obtain ⟨h1, h2⟩ := bssSum_mergeObj p.1 (sortedSections p.2) st hs
    obtain ⟨h3, h4⟩ := bssSum_mergeEnum rest _ h1
    refine ⟨h3, ?_⟩
    rw [h4, h2, List.map_cons, List.sum_cons]
    have hperm : ((sortedSections p.2).map (fun q => bssContrib q.1 q.2)).sum =
        ((p.2.sections).map (fun q => bssContrib q.1 q.2)).sum :=
      List.Perm.sum_eq ((insSortBy_perm _ p.2.sections).map _)
    omega

/-- The stage-one `.bss` buffer total equals the summed byte lengths of every input
`.bss*` section across the participating objects. -/
theorem bssSum_mergeStage1 (objs : List FLEObject) :
    bssMergedSize (mergeStage1 objs).merged_sections = bssInputTotal objs := by
  unfold mergeStage1 bssInputTotal
  obtain ⟨h1, h2⟩ := bssSum_mergeEnum objs.enum ⟨[], [], []⟩ (by simp [msorted])
  rw [h2]
  have henum : (objs.enum.map (fun p =>
      ((p.2.sections).map (fun q => bssContrib q.1 q.2)).sum)) =
      objs.map (fun o => ((o.sections).map (fun q => bssContrib q.1 q.2)).sum) := by
    rw [show (fun p : Nat × FLEObject =>
        ((p.2.sections).map (fun q => bssContrib q.1 q.2)).sum) =
        (fun o : FLEObject => ((o.sections).map (fun q => bssContrib q.1 q.2)).sum) ∘
          Prod.snd from rfl]
    rw [← List.map_map]
    rw [List.enum_map_snd]
  rw [henum]
  simp [bssMergedSize]


/-! ## C10 support: the `.bss` output section always exists -/

/-- The `.bss` category never copies bytes: its accumulated data stays empty. -/
theorem catStep_bss_data (ms : List (String × FLESection)) (prefixes : List String) :
    ∀ (names : List String)
      (acc : FLESection × Nat × List (String × String) × List (String × Nat)),
      (List.foldl (catStep ms ".bss" prefixes) acc names).1.data = acc.1.data
  | [], _ => rfl
  | n :: rest, acc => by
    rw [List.foldl_cons, catStep_bss_data ms prefixes rest]
    unfold catStep
    split
    · simp
    · rfl

/-- The leftover pass only touches the `.data` binding: the `.bss` one survives. -/
theorem leftover_preserves_bss (ms : List (String × FLESection)) :
    ∀ (names : List String) (st : CatSt) (x : FLESection),
      mfind st.output_sections ".bss" = some x →
      mfind (List.foldl (leftoverStep ms) st names).output_sections ".bss" = some x
  | [], st, x, h => h
  | n :: rest, st, x, h => by
    rw [List.foldl_cons]
    apply leftover_preserves_bss ms rest
    unfold leftoverStep
    split
    · exact h
    · simp only
      rw [mfind_minsert_ne _ _ _ _ (by decide)]
      split
      · exact h
      · rw [mfind_minsert_ne _ _ _ _ (by decide)]
        exact h

/-- The `.bss` category is always kept, with an empty byte buffer. -/
theorem catCategory_bss (ms : List (String × FLESection)) (A : List String) (st3 : CatSt) :
    ∃ s, mfind (catCategory ms A st3 (".bss", [".bss"])).output_sections ".bss" = some s ∧
      s.data = [] := by
  simp only [catCategory]
  split
  · exact ⟨_, mfind_minsert_self _ _ _, catStep_bss_data ms [".bss"] A _⟩
  · rename_i hcond
    exact absurd (Or.inr (Or.inr trivial)) hcond

/-- Stage two always emits a `.bss` output section, with an empty byte buffer. -/
theorem categorize_bss (ms : List (String × FLESection)) :
    ∃ s, mfind (categorize ms).output_sections ".bss" = some s ∧ s.data = [] := by
  unfold categorize
  simp only [section_categories, List.foldl_cons, List.foldl_nil]
  obtain ⟨s, hs, hd⟩ := catCategory_bss ms (insSortBy strLe (ms.map Prod.fst))
    (catCategory ms (insSortBy strLe (ms.map Prod.fst))
      (catCategory ms (insSortBy strLe (ms.map Prod.fst))
        (catCategory ms (insSortBy strLe (ms.map Prod.fst)) ⟨[], [], []⟩
          (".text", [".text"]))
        (".rodata", [".rodata"]))
      (".data", [".data"]))
  exact ⟨s, leftover_preserves_bss ms _ _ s hs, hd⟩


/-- When `.bss` is present among the output sections, the layout records it with file
offset 0 and the summed `.bss` input size. -/
theorem layout_bss (out ms : List (String × FLESection))
    (hsome : (mfind out ".bss").isSome) :
    ".bss" ∈ (layout out ms).out_sec_names ∧
    mfind (layout out ms).section_file_offsets ".bss" = some 0 ∧
    mfind (layout out ms).section_mem_sizes ".bss" = some (bssMergedSize ms) := by
  have hinit : layInv ms ⟨[], [], [], []⟩ 0 0 :=
    ⟨[], rfl, by simp, List.chain'_nil, by simp, fun _ => rfl, by simp, List.chain'_nil,
      by simp, fun _ => rfl, by simp, by simp⟩
  have hfold := layInv_fold out ms output_order ⟨[], [], [], []⟩ 0 0 hinit (by simp)
    (by decide)
  have hlayeq : layout out ms =
      (List.foldl (layoutStep out ms) (⟨[], [], [], []⟩, 0, 0) output_order).1 := rfl
  obtain ⟨rows, hnames, hlook, _, _, _, _, _, _, _, _, hbss⟩ := hfold
  rw [← hlayeq] at hnames hlook
  have hmem : ".bss" ∈ (layout out ms).out_sec_names := by
    rw [hlayeq, layout_fold_names]
    simp only [List.nil_append]
    exact List.mem_filter.mpr ⟨by simp [output_order], by simpa using hsome⟩
  refine ⟨hmem, ?_, ?_⟩ <;>
    · rw [hnames] at hmem
      obtain ⟨r, hr, hrn⟩ := List.mem_map.mp hmem
      obtain ⟨hb1, hb2⟩ := hbss r hr hrn
      first
      | (rw [← hrn, (hlook r hr).2.1, hb1])
      | (rw [← hrn, (hlook r hr).2.2, hb2])

/-- Inversion of a successful `Except` bind. -/
theorem except_bind_ok {α β : Type} (x : Except String α) (f : α → Except String β) (b : β)
    (h : (x >>= f) = .ok b) : ∃ a, x = .ok a ∧ f a = .ok b := by
  cases x with
  | error e => simp [Bind.bind, Except.bind] at h
  | ok a => exact ⟨a, rfl, by simpa [Bind.bind, Except.bind] using h⟩

/-- A `.bss` relocation that goes through leaves the buffer unchanged. -/
theorem applyOneReloc_bss (ctx : LinkCtx) (data : List Nat) (reloc : Relocation)
    (d2 : List Nat) (h : applyOneReloc ctx ".bss" data reloc = .ok d2) : d2 = data := by
  simp only [applyOneReloc] at h
  split at h
  · cases h
  · cases h
    rfl
  · rw [if_pos trivial] at h
    cases h
    rfl

/-- Folding the relocations of `.bss` leaves the buffer unchanged. -/
theorem foldlM_bss (ctx : LinkCtx) :
    ∀ (rl : List Relocation) (data d2 : List Nat),
      List.foldlM (applyOneReloc ctx ".bss") data rl = .ok d2 → d2 = data
  | [], data, d2, h => by
    simp only [List.foldlM_nil] at h
    cases h
    rfl
  | r :: rest, data, d2, h => by
    rw [List.foldlM_cons] at h
    obtain ⟨d1, hd1, h2⟩ := except_bind_ok _ _ _ h
    have h3 := foldlM_bss ctx rest d1 d2 h2
    rw [h3, applyOneReloc_bss ctx data r d1 hd1]

/-- Relocating the `.bss` output section keeps its (empty) byte buffer. -/
theorem relocateSection_bss (ctx : LinkCtx) (s s2 : FLESection)
    (h : relocateSection ctx ".bss" s = .ok s2) : s2.data = s.data := by
  unfold relocateSection at h
  rcases hf : List.foldlM (applyOneReloc ctx ".bss") s.data s.relocs with e | d <;>
    rw [hf] at h <;> simp only [Except.map] at h
  · cases h
  · cases h
    simp [foldlM_bss ctx s.relocs s.data d hf]

/-- The relocation pass preserves keys: every input binding reappears relocated. -/
theorem relocateAll_mfind (ctx : LinkCtx) :
    ∀ (oss res : List (String × FLESection)),
      relocateAll ctx oss = .ok res →
      ∀ (k : String) (s : FLESection), mfind oss k = some s →
        ∃ s2, mfind res k = some s2 ∧ relocateSection ctx k s = .ok s2
  | [], res, h, k, s, hk => by cases hk
  | (k0, s0) :: rest, res, h, k, s, hk => by
    unfold relocateAll at h
    rw [List.mapM_cons] at h
    obtain ⟨y, hy, h2⟩ := except_bind_ok _ _ _ h
    obtain ⟨ys, hys, h3⟩ := except_bind_ok _ _ _ h2
    have hres : res = y :: ys := by
      simpa [Pure.pure, Except.pure] using h3.symm
    rcases h0 : relocateSection ctx k0 s0 with e | s0'
    · rw [h0] at hy
      simp [Except.map] at hy
    · rw [h0] at hy
      simp only [Except.map] at hy
      cases hy
      subst hres
      by_cases hkk : k0 = k
      · subst hkk
        rw [mfind] at hk
        simp only [if_pos rfl] at hk
        cases hk
        exact ⟨s0', by simp [mfind], h0⟩
      · rw [mfind] at hk
        simp only [hkk, reduceIte] at hk
        obtain ⟨s2, hf2, hrel2⟩ := relocateAll_mfind ctx rest ys
          (by unfold relocateAll; exact hys) k s hk
        exact ⟨s2, by simpa [mfind, hkk] using hf2, hrel2⟩

/-- Lookup through the relocation-clearing map. -/
theorem mfind_map_clear (l : List (String × FLESection)) (k : String) :
    mfind (l.map (fun p => (p.1, { p.2 with relocs := ([] : List Relocation) }))) k =
      (mfind l k).map (fun s => { s with relocs := ([] : List Relocation) }) := by
  induction l with
  | nil => simp [mfind]
  | cons p rest ih =>
    by_cases hp : p.1 = k
    · simp [mfind, hp]
    · simp [mfind, hp, ih]


/-- C10: every successful link's output image contains a `.bss` output section: its
section map holds a `.bss` entry with an empty byte buffer, and both a section header
and a program header named `.bss` are emitted, with file offset 0 and size equal to the
summed byte lengths of all `.bss*` input sections of the participating objects (zero
when there are none). -/
theorem C10_bss_always (objects : List FLEObject) (options : LinkerOptions)
    (out : FLEObject) (h : FLE_ld objects options = .ok out) :
    (∃ s, mfind out.sections ".bss" = some s ∧ s.data = []) ∧
    (∃ shdr ∈ out.shdrs, shdr.name = ".bss" ∧ shdr.offset = 0 ∧
      shdr.size = bssInputTotal (resolveParticipating objects)) ∧
    (∃ phdr ∈ out.phdrs, phdr.name = ".bss" ∧
      phdr.size = bssInputTotal (resolveParticipating objects)) := by
  simp only [FLE_ld] at h
  split at h
  · cases h
  · split at h
    · cases h
    · rename_i symst hsym
      split at h
      · cases h
      · rename_i relocated hrel
        cases h
        obtain ⟨s, hs, hd⟩ := categorize_bss
          (mergeStage1 (resolveParticipating objects)).merged_sections
        obtain ⟨s2, hf2, hrel2⟩ := relocateAll_mfind _ _ relocated hrel ".bss" s hs
        have hd2 : s2.data = [] := by
          rw [relocateSection_bss _ s s2 hrel2, hd]
        obtain ⟨hmem, hfo, hms⟩ := layout_bss
          (categorize (mergeStage1 (resolveParticipating objects)).merged_sections).output_sections
          (mergeStage1 (resolveParticipating objects)).merged_sections
          (by rw [hs]; rfl)
        refine ⟨?_, ?_, ?_⟩
        · simp only [FLEObject.sections]
          by_cases hsh : options.shared
          · rw [if_pos hsh]
            exact ⟨s2, hf2, hd2⟩
          · rw [if_neg hsh, mfind_map_clear, hf2]
            exact ⟨_, rfl, hd2⟩
        · simp only [FLEObject.shdrs]
          refine ⟨mkShdr _ ".bss", List.mem_map_of_mem _ hmem, rfl, ?_, ?_⟩
          · simp [mkShdr, mgetD, hfo]
          · simp only [mkShdr, mgetD, hms, Option.getD_some]
            exact bssSum_mergeStage1 (resolveParticipating objects)
        · simp only [FLEObject.phdrs]
          refine ⟨mkPhdr _ ".bss", List.mem_map_of_mem _ hmem, rfl, ?_⟩
          simp only [mkPhdr, mgetD, hms, Option.getD_some]
          exact bssSum_mergeStage1 (resolveParticipating objects)

/-- The C10 witness input: a plain object with `.text` only — no input section is
`.bss`-prefixed. -/
def cex10_obj : FLEObject :=
  FLEObject.mk "a.o" ".o"
    [(".text", { name := ".text", data := [0x90, 0x90], relocs := [], has_symbols := true })]
    [{ name := "_start", type := SymbolType.GLOBAL, sec := ".text", offset := 0 }]
    [] [] [] 0

/-- Witness for C10: linking the `.text`-only object still produces a `.bss` output
section (empty data) in the image. -/
theorem C10_witness :
    ∃ out, FLE_ld [cex10_obj] cexOptsExe = .ok out ∧
      (∃ s, mfind out.sections ".bss" = some s ∧ s.data = []) ∧
      (∃ shdr ∈ out.shdrs, shdr.name = ".bss" ∧ shdr.offset = 0 ∧
        shdr.size = bssInputTotal (resolveParticipating [cex10_obj])) ∧
      (∃ phdr ∈ out.phdrs, phdr.name = ".bss" ∧
        phdr.size = bssInputTotal (resolveParticipating [cex10_obj])) := by
  rcases hout : FLE_ld [cex10_obj] cexOptsExe with e | out
  · exfalso
    have hok : ldOk (FLE_ld [cex10_obj] cexOptsExe) = true := by decide
    rw [hout] at hok
    simp [ldOk] at hok
  · exact ⟨out, rfl, C10_bss_always [cex10_obj] cexOptsExe out hout⟩


/-! ## C9: the symbol lister -/

/-- `strLt` is asymmetric. -/
theorem strLt_asymm (a b : String) (h : strLt a b = true) : strLt b a = false :=
  listLtChar_asymm a.data b.data h

/-- Sort rank of the undefined test: undefined symbols sort after defined ones. -/
def urank (a : Symbol) : Nat :=
  if a.type = SymbolType.UNDEFINED then 1 else 0

/-- The comparator of `nm.cpp` is the lexicographic order on
(undefined-last rank, section name, offset). -/
theorem nmLess_iff (a b : Symbol) :
    nmLess a b = true ↔
      (urank a < urank b ∨ (urank a = urank b ∧
        (strLt a.sec b.sec = true ∨ (a.sec = b.sec ∧ a.offset < b.offset)))) := by
  unfold nmLess urank
  by_cases ha : a.type = SymbolType.UNDEFINED <;>
    by_cases hb : b.type = SymbolType.UNDEFINED <;>
    by_cases hsec : a.sec = b.sec <;>
    simp [ha, hb, hsec, strLt_irrefl]

/-- The comparator is asymmetric. -/
theorem nmLess_asymm (a b : Symbol) (h : nmLess a b = true) : nmLess b a = false := by
  rcases h2 : nmLess b a with _ | _
  · rfl
  · exfalso
    rw [nmLess_iff] at h h2
    rcases h with h | ⟨hr, h⟩ <;> rcases h2 with h2 | ⟨hr2, h2⟩
    · omega
    · omega
    · omega
    · rcases h with h | ⟨hs, ho⟩ <;> rcases h2 with h2 | ⟨hs2, ho2⟩
      · rw [strLt_asymm _ _ h] at h2
        cases h2
      · rw [hs2] at h
        rw [strLt_irrefl] at h
        cases h
      · rw [hs] at h2
        rw [strLt_irrefl] at h2
        cases h2
      · omega

/-- The comparator's complement is transitive (negative transitivity of the strict weak
order). -/
theorem nmLess_negtrans (a b c : Symbol) (h1 : nmLess b a = false)
    (h2 : nmLess c b = false) : nmLess c a = false := by
  rcases h3 : nmLess c a with _ | _
  · rfl
  · exfalso
    have h3' := (nmLess_iff c a).mp h3
    have h1' : ¬ (nmLess b a = true) := by simp [h1]
    have h2' : ¬ (nmLess c b = true) := by simp [h2]
    rw [nmLess_iff] at h1' h2'
    push_neg at h1' h2'
    obtain ⟨hr1, hl1⟩ := h1'
    obtain ⟨hr2, hl2⟩ := h2'
    rcases h3' with h3' | ⟨hr3, h3'⟩
    · omega
    · have hba : urank b = urank a := by omega
      have hcb : urank c = urank b := by omega
      have hL1 := hl1 hba
      have hL2 := hl2 hcb
      push_neg at hL1 hL2
      obtain ⟨hs1, ho1⟩ := hL1
      obtain ⟨hs2, ho2⟩ := hL2
      have hs1' : strLt b.sec a.sec = false := by simpa using hs1
      have hs2' : strLt c.sec b.sec = false := by simpa using hs2
      rcases h3' with hlt | ⟨hse, hof⟩
      · rcases hcb2 : strLt b.sec c.sec with _ | _
        · have hcbeq := strLt_conn c.sec b.sec hs2' hcb2
          rw [← hcbeq] at hs1'
          rw [hs1'] at hlt
          cases hlt
        · have := strLt_trans _ _ _ hcb2 hlt
          rw [this] at hs1'
          cases hs1'
      · have hs1'' : strLt b.sec c.sec = false := by rw [hse]; exact hs1'
        have hbc : c.sec = b.sec := strLt_conn c.sec b.sec hs2' hs1''
        have hob := ho2 hbc
        have hoa := ho1 (by rw [← hbc, hse])
        omega

/-- The claim's ordering: undefined symbols last, otherwise (section, offset)
nondecreasing. -/
def nmSpecOrder (a b : Symbol) : Prop :=
  (a.type = SymbolType.UNDEFINED → b.type = SymbolType.UNDEFINED) ∧
  ((a.type = SymbolType.UNDEFINED ↔ b.type = SymbolType.UNDEFINED) →
    strLt a.sec b.sec = true ∨ (a.sec = b.sec ∧ a.offset ≤ b.offset))

/-- The comparator's complement implies the claim's ordering. -/
theorem nmSpecOrder_of_not_lt (a b : Symbol) (h : nmLess b a = false) : nmSpecOrder a b := by
  have h' : ¬ (nmLess b a = true) := by simp [h]
  rw [nmLess_iff] at h'
  push_neg at h'
  obtain ⟨hr, hl⟩ := h'
  constructor
  · intro ha
    by_cases hb : b.type = SymbolType.UNDEFINED
    · exact hb
    · exfalso
      have h0 : urank b = 0 := by simp [urank, hb]
      have h1 : urank a = 1 := by simp [urank, ha]
      omega
  · intro hiff
    have hra : urank b = urank a := by
      unfold urank
      by_cases ha : a.type = SymbolType.UNDEFINED
      · simp [ha, hiff.mp ha]
      · have hb : ¬ b.type = SymbolType.UNDEFINED := fun hh => ha (hiff.mpr hh)
        simp [ha, hb]
    have hL := hl hra
    push_neg at hL
    obtain ⟨hs, ho⟩ := hL
    have hs' : strLt b.sec a.sec = false := by simpa using hs
    rcases hab : strLt a.sec b.sec with _ | _
    · have heq := strLt_conn a.sec b.sec hab hs'
      right
      refine ⟨heq, ?_⟩
      have := ho heq.symm
      omega
    · left
      rfl

/-- The claim's base classification letter, written from the spec's words. -/
def nmSpecBase (sec : String) : Char :=
  if strIsPrefixOf ".text" sec then 'T'
  else if strIsPrefixOf ".data" sec then 'D'
  else if strIsPrefixOf ".bss" sec then 'B'
  else if strIsPrefixOf ".rodata" sec then 'R'
  else '?'

/-- The claim's classification character, written from the spec's words: `U` for
undefined, else the base letter, lowercased for local, kept for global, and replaced by
`W`/`V` for weak text/data symbols. -/
def nmSpecChar (sym : Symbol) : Char :=
  match sym.type with
  | SymbolType.UNDEFINED => 'U'
  | SymbolType.LOCAL => (nmSpecBase sym.sec).toLower
  | SymbolType.GLOBAL => nmSpecBase sym.sec
  | SymbolType.WEAK =>
    if strIsPrefixOf ".text" sym.sec then 'W'
    else if strIsPrefixOf ".data" sym.sec ∨ strIsPrefixOf ".bss" sym.sec ∨
        strIsPrefixOf ".rodata" sym.sec then 'V'
    else nmSpecBase sym.sec

/-- Digit-count bound for the hex rendering. -/
theorem hexRender_length (fuel : Nat) :
    ∀ n : Nat, n < 16 ^ fuel → (hexRender fuel n).length ≤ fuel := by
  induction fuel with
  | zero => intro n h; simp [hexRender]
  | succ f ih =>
    intro n h
    rw [hexRender]
    by_cases hn : n < 16
    · simp [hn]
    · have hdiv : n / 16 < 16 ^ f := by
        apply Nat.div_lt_of_lt_mul
        rw [Nat.mul_comm]
        exact h.trans_le (le_of_eq (pow_succ 16 f))
      have := ih (n / 16) hdiv
      simp only [hn, reduceIte, List.length_append, List.length_singleton]
      omega

/-- The rendered offset field is exactly 16 characters for every `uint64_t` value. -/
theorem hex16_length (n : Nat) (h : n < 2 ^ 64) : (hex16 n).length = 16 := by
  have h16 : n < 16 ^ 16 := by
    have : (16 : Nat) ^ 16 = 2 ^ 64 := by norm_num
    omega
  have h2 := hexRender_length 16 n h16
  unfold hex16
  simp only [String.length]
  simp only [List.length_append, List.length_replicate]
  omega

/-- The source's classification character agrees with the claim's. -/
theorem classChar_eq_spec (sym : Symbol) : classChar sym = nmSpecChar sym := by
  rcases htype : sym.type <;>
    simp [classChar, nmSpecChar, nmSpecBase, htype]

/-- C9: the lister emits one line per symbol: the printed list is the image of a
permutation of the symbol table, sorted with undefined symbols last and otherwise by
(section-name ascending, offset ascending); each line is the 16-hex-digit offset (zero
for undefined), a space, the classification character — which matches the spec's table
`nmSpecChar` exactly — a space, and the name. -/
theorem C9_nm_lister (obj : FLEObject) :
    ∃ sorted : List Symbol,
      FLE_nm obj = sorted.map nmLine ∧
      sorted.Perm obj.symbols ∧
      List.Pairwise nmSpecOrder sorted ∧
      (∀ sym : Symbol, classChar sym = nmSpecChar sym) ∧
      (∀ sym : Symbol, nmLine sym =
        hex16 (if sym.type = SymbolType.UNDEFINED then 0 else sym.offset) ++ " " ++
          String.mk [classChar sym] ++ " " ++ sym.name) ∧
      (∀ n : Nat, n < 2 ^ 64 → (hex16 n).length = 16) := by
  refine ⟨insSortBy (fun a b => !nmLess b a) obj.symbols, rfl,
    insSortBy_perm _ obj.symbols, ?_, classChar_eq_spec, fun sym => rfl, hex16_length⟩
  have htot : ∀ a b : Symbol, (!nmLess b a) = true ∨ (!nmLess a b) = true := by
    intro a b
    rcases hab : nmLess a b with _ | _
    · right; simp [hab]
    · left; simp [nmLess_asymm a b hab]
  have htr : ∀ a b c : Symbol, (!nmLess b a) = true → (!nmLess c b) = true →
      (!nmLess c a) = true := by
    intro a b c hab hbc
    simp only [Bool.not_eq_true'] at hab hbc ⊢
    exact nmLess_negtrans a b c hab hbc
  have hp := pairwise_insSortBy (fun a b => !nmLess b a) htot htr obj.symbols
  refine hp.imp ?_
  intro a b hab
  simp only [Bool.not_eq_true'] at hab
  exact nmSpecOrder_of_not_lt a b hab

/-- The C9 witness object: one symbol of each flavor. -/
def cex9_obj : FLEObject :=
  FLEObject.mk "x.o" ".o" []
    [{ name := "u1", type := SymbolType.UNDEFINED, sec := "", offset := 0 },
     { name := "t1", type := SymbolType.GLOBAL, sec := ".text", offset := 16 },
     { name := "l1", type := SymbolType.LOCAL, sec := ".text", offset := 2 },
     { name := "w1", type := SymbolType.WEAK, sec := ".data", offset := 3 }]
    [] [] [] 0

/-- Witness for C9, discharging the inner bound at a concrete offset: the lister output
for a small object, with the 16-character offset field. -/
theorem C9_witness :
    ∃ sorted : List Symbol,
      FLE_nm cex9_obj = sorted.map nmLine ∧
      sorted.Perm cex9_obj.symbols ∧
      List.Pairwise nmSpecOrder sorted ∧
      classChar { name := "w1", type := SymbolType.WEAK, sec := ".data", offset := 3 } =
        nmSpecChar { name := "w1", type := SymbolType.WEAK, sec := ".data", offset := 3 } ∧
      (hex16 16).length = 16 := by
  obtain ⟨sorted, h1, h2, h3, h4, h5, h6⟩ := C9_nm_lister cex9_obj
  exact ⟨sorted, h1, h2, h3, h4 _, h6 16 (by norm_num)⟩

end FLE
